import Mathlib

/-!
Verification development for the crayon repository's signature-library /
diffusion-map pipeline.

The Python sources embedded here are:
  * `src/crayon/util.py`  — `rankTransform` (and the value model it needs),
  * `src/py/nga.py`       — `Ensemble.prune`, `Ensemble.computeDists`,
                            `Ensemble.detectDistOutliers`,
  * `src/py/dmap.py`      — `DMap.build`.

Modelling conventions:
  * Machine floats are modelled by `RVal`: an exact rational (`fin`), the two
    infinities, or `nan`.  Comparisons follow IEEE semantics (`nan` compares
    false with everything, including itself), which is what the numpy code
    relies on (`r == r` as a NaN mask).
  * Distance matrices handed around by `nga.py` contain only finite values
    (they are Euclidean norms), so they are plain `List (List ℚ)`; the
    NaN-backfilled embedding arrays of `dmap.py` use `RVal`.
  * numpy's default `argsort`/`sort` are modelled as stable sorts
    (`List.insertionSort` by the lexicographic (value, index) key); numpy
    sorts place NaN last, which `npLe` reproduces.
  * The external eigensolver (`PyDMap`) and the real power `x ** alpha` are
    opaque collaborators; `DMap.build` is parameterised by them.
-/

namespace Crayon

/-- IEEE-style scalar: finite rational, ±infinity, or NaN. -/
inductive RVal where
  | fin (q : ℚ)
  | pinf
  | ninf
  | nan
deriving DecidableEq, Repr

namespace RVal

/-- Is this value NaN? -/
def isNaN : RVal → Bool
  | nan => true
  | _ => false

/-- Is this value finite? -/
def isFin : RVal → Bool
  | fin _ => true
  | _ => false

/-- IEEE equality test (`==` in numpy): NaN is not equal to anything,
including itself. -/
def eqb : RVal → RVal → Bool
  | fin a, fin b => a == b
  | pinf, pinf => true
  | ninf, ninf => true
  | _, _ => false

/-- IEEE strict less-than: any comparison involving NaN is false. -/
def ltb : RVal → RVal → Bool
  | fin a, fin b => a < b
  | fin _, pinf => true
  | ninf, fin _ => true
  | ninf, pinf => true
  | _, _ => false

/-- IEEE less-or-equal: any comparison involving NaN is false. -/
def leb (a b : RVal) : Bool := ltb a b || eqb a b

/-- IEEE addition. -/
def add : RVal → RVal → RVal
  | fin a, fin b => fin (a + b)
  | fin _, pinf => pinf
  | fin _, ninf => ninf
  | pinf, fin _ => pinf
  | ninf, fin _ => ninf
  | pinf, pinf => pinf
  | ninf, ninf => ninf
  | pinf, ninf => nan
  | ninf, pinf => nan
  | _, _ => nan

/-- IEEE negation. -/
def neg : RVal → RVal
  | fin a => fin (-a)
  | pinf => ninf
  | ninf => pinf
  | nan => nan

/-- IEEE subtraction. -/
def sub (a b : RVal) : RVal := add a (neg b)

/-- IEEE multiplication (`0 * ±inf` is NaN). -/
def mul : RVal → RVal → RVal
  | fin a, fin b => fin (a * b)
  | fin a, pinf => if a = 0 then nan else if 0 < a then pinf else ninf
  | fin a, ninf => if a = 0 then nan else if 0 < a then ninf else pinf
  | pinf, fin b => if b = 0 then nan else if 0 < b then pinf else ninf
  | ninf, fin b => if b = 0 then nan else if 0 < b then ninf else pinf
  | pinf, pinf => pinf
  | ninf, ninf => pinf
  | pinf, ninf => ninf
  | ninf, pinf => ninf
  | _, _ => nan

/-- IEEE division (`x / 0` gives a signed infinity, `0 / 0` and
`inf / inf` give NaN, `x / ±inf` gives `0` for finite `x`). -/
def div : RVal → RVal → RVal
  | fin a, fin b =>
      if b = 0 then (if a = 0 then nan else if 0 < a then pinf else ninf)
      else fin (a / b)
  | fin _, pinf => fin 0
  | fin _, ninf => fin 0
  | pinf, fin b => if 0 ≤ b then pinf else ninf
  | ninf, fin b => if 0 ≤ b then ninf else pinf
  | _, _ => nan

end RVal

/-- Total order used to model numpy's `sort`/`argsort` on floats:
usual order on reals with both infinities in place, and NaN sorted
after everything (numpy sorts NaN to the end of the array). -/
def npLe : RVal → RVal → Prop
  | _, .nan => True
  | .nan, _ => False
  | .ninf, _ => True
  | _, .ninf => False
  | _, .pinf => True
  | .pinf, _ => False
  | .fin a, .fin b => a ≤ b

instance : DecidableRel npLe := fun a b =>
  match a, b with
  | .fin a, .fin b => inferInstanceAs (Decidable (a ≤ b))
  | .fin _, .pinf => isTrue trivial
  | .fin _, .ninf => isFalse (fun h => h)
  | .fin _, .nan => isTrue trivial
  | .pinf, .fin _ => isFalse (fun h => h)
  | .pinf, .pinf => isTrue trivial
  | .pinf, .ninf => isFalse (fun h => h)
  | .pinf, .nan => isTrue trivial
  | .ninf, .fin _ => isTrue trivial
  | .ninf, .pinf => isTrue trivial
  | .ninf, .ninf => isTrue trivial
  | .ninf, .nan => isTrue trivial
  | .nan, .fin _ => isFalse (fun h => h)
  | .nan, .pinf => isFalse (fun h => h)
  | .nan, .ninf => isFalse (fun h => h)
  | .nan, .nan => isTrue trivial

instance : IsTotal RVal npLe where
  total a b := by
    cases a <;> cases b <;> simp only [npLe] <;> first
      | exact Or.inl trivial
      | exact Or.inr trivial
      | exact le_total _ _

instance : IsTrans RVal npLe where
  trans a b c hab hbc := by
    cases a <;> cases b <;> cases c <;>
      simp only [npLe] at * <;> first | trivial | exact le_trans hab hbc

/-- `np.sort` on a float vector. -/
def npSort (l : List RVal) : List RVal := List.insertionSort npLe l

/-- `np.linspace(0., 1., n)`: `n` evenly spaced rationals from 0 to 1.
For `n = 1` numpy returns `[0.]`, which the rational division by
`n - 1 = 0` (which is `0` in `ℚ`) reproduces. -/
def linspace (n : ℕ) : List ℚ :=
  (List.range n).map (fun i : ℕ => (i : ℚ) / ((n : ℚ) - 1))

/-- Core loop of `np.interp`: walk to the rightmost interval whose left
endpoint is `≤ x` and interpolate linearly there; once only one sample
is left the query clamps to its value (`fp[-1]`).  Invariant at every
call: `¬ ltb x x0` for the head sample `x0`. -/
def interpGo (x : RVal) : List RVal → List ℚ → RVal
  | x0 :: x1 :: xt, y0 :: y1 :: yt =>
      if RVal.leb x1 x then interpGo x (x1 :: xt) (y1 :: yt)
      else
        RVal.add
          (RVal.mul (RVal.div (RVal.fin (y1 - y0)) (RVal.sub x1 x0)) (RVal.sub x x0))
          (RVal.fin y0)
  | _ :: _, y0 :: _ => RVal.fin y0
  | _, _ => RVal.nan

/-- `np.interp(x, xp, fp)` for one query point `x`, sample points `xp`
(assumed ascending, as in the numpy contract) and values `fp`.
A NaN query propagates to NaN; queries left of the first sample clamp
to `fp[0]`; an empty sample list is an error in numpy (unreached under
the hypotheses used below) and is modelled as NaN. -/
def interp (x : RVal) (xs : List RVal) (ys : List ℚ) : RVal :=
  if x.isNaN then RVal.nan
  else
    match xs, ys with
    | x0 :: xt, y0 :: yt =>
        if RVal.ltb x x0 then RVal.fin y0 else interpGo x (x0 :: xt) (y0 :: yt)
    | _, _ => RVal.nan

/-- Number of columns of a matrix, as numpy's `shape[1]` (rows are
rectangular in every use below). -/
def shape1 {α : Type} (m : List (List α)) : ℕ := (m.headD []).length

/-- Column `i` of a matrix of floats (`R[:,i]`). -/
def column (R : List (List RVal)) (i : ℕ) : List RVal :=
  R.map (fun row => row.getD i RVal.nan)

/-- `r[r == r]` sorted: the non-NaN entries of a column in ascending
order (`rs = r[r==r][np.argsort(r[r==r])]` in `rankTransform`). -/
def keptSorted (col : List RVal) : List RVal :=
  npSort (col.filter (fun v => RVal.eqb v v))

/-- The per-column interpolation pass of `rankTransform`
(`T[:,i] = np.interp(r, rs, x)` for every column `i`), before the
NaN-row forcing. -/
def rankT0 (R : List (List RVal)) : List (List RVal) :=
  let nc := shape1 R
  R.map (fun row =>
    (List.range nc).map (fun i =>
      let rs := keptSorted (column R i)
      interp (row.getD i RVal.nan) rs (linspace rs.length)))

/-- `crayon.util.rankTransform` (re-exported as `color.rankTransform`):
per-column empirical-rank transform to `[0,1]`, then every row whose
*last* column came out NaN (`nan_idx = argwhere(isnan(T[:,-1]))`) is
overwritten with `1.` across all columns. -/
def rankTransform (R : List (List RVal)) : List (List RVal) :=
  (rankT0 R).map (fun row =>
    if (row.getLastD RVal.nan).isNaN then row.map (fun _ => RVal.fin 1) else row)

/-! ## `nga.py` — `Ensemble.prune` -/

/-- The key by which numpy's stable ascending `argsort` orders index `i`
before index `j`: smaller value first, equal values in original index
order. -/
def lexLe (vals : List ℚ) (i j : ℕ) : Prop :=
  vals.getD i 0 < vals.getD j 0 ∨ (vals.getD i 0 = vals.getD j 0 ∧ i ≤ j)

instance (vals : List ℚ) : DecidableRel (lexLe vals) := fun i j => by
  unfold lexLe; infer_instance

instance (vals : List ℚ) : IsTotal ℕ (lexLe vals) where
  total i j := by
    unfold lexLe
    rcases lt_trichotomy (vals.getD i 0) (vals.getD j 0) with h | h | h
    · exact Or.inl (Or.inl h)
    · rcases le_total i j with hij | hij
      · exact Or.inl (Or.inr ⟨h, hij⟩)
      · exact Or.inr (Or.inr ⟨h.symm, hij⟩)
    · exact Or.inr (Or.inl h)

instance (vals : List ℚ) : IsTrans ℕ (lexLe vals) where
  trans i j k hij hjk := by
    unfold lexLe at *
    rcases hij with h1 | ⟨e1, l1⟩ <;> rcases hjk with h2 | ⟨e2, l2⟩
    · exact Or.inl (h1.trans h2)
    · exact Or.inl (e2 ▸ h1)
    · exact Or.inl (e1 ▸ h2)
    · exact Or.inr ⟨e1.trans e2, l1.trans l2⟩

/-- `np.argsort(vals)` modelled as the stable ascending argsort: the
index list `0, …, n-1` sorted by value, ties kept in index order. -/
def argsortAsc (vals : List ℚ) : List ℕ :=
  List.insertionSort (lexLe vals) (List.range vals.length)

/-- `np.percentile(vals, q)` with numpy's default linear interpolation:
virtual index `h = q/100 * (n-1)`, result
`s[i] + (h - i) * (s[i+1] - s[i])` where `i = floor h`, on the ascending
sort `s`.  Empty input is an error in numpy (unreached below), modelled
as 0. -/
def percentileQ (vals : List ℚ) (q : ℚ) : ℚ :=
  let s := List.insertionSort (· ≤ ·) vals
  let n := s.length
  let h : ℚ := q / 100 * ((n : ℚ) - 1)
  let i : ℕ := h.floor.toNat
  s.getD i 0 + (h - (i : ℚ)) * (s.getD (i + 1) (s.getD i 0) - s.getD i 0)

/-- `Ensemble.prune(num_random=None, num_top, min_freq, min_percentile,
mode)`.  Returns the new `self.lm_idx` (`none` when the attribute is
never assigned, i.e. on the unknown-mode `ValueError`) together with the
raised exception, if any.  Python sets `self.lm_idx = np.array([])`
*before* dispatching on the selectors, so the no-selector `RuntimeError`
leaves an empty landmark set behind.  The `num_random` extension draws
from `np.random.choice` and is outside this deterministic model (all
claims call `prune` without it). -/
def prune (counts sizes : List ℚ) (mode : String)
    (num_top : Option ℕ) (min_freq min_percentile : Option ℚ) :
    Option (List ℕ) × Option String :=
  let vals? : Option (List ℚ) :=
    if mode = "frequency" then some counts
    else if mode = "clustersize" then some sizes
    else none
  match vals? with
  | none => (none, some "ValueError: must specify a valid mode (frequency of clustersize)")
  | some vals =>
    match num_top with
    | some k =>
        (some (List.insertionSort (· ≤ ·) (((argsortAsc vals).reverse).take k)), none)
    | none =>
      match min_freq with
      | some f =>
          (some ((List.range vals.length).filter (fun i => f ≤ vals.getD i 0)), none)
      | none =>
        match min_percentile with
        | some p =>
            (some ((List.range vals.length).filter
              (fun i => percentileQ vals p ≤ vals.getD i 0)), none)
        | none => (some [], some "RuntimeError: must supply either num_landmarks or min_freq")

/-! ## `nga.py` — `Ensemble.computeDists` and `Ensemble.detectDistOutliers` -/

/-- Elementwise difference of two descriptor vectors (`dat - dat[lm]`,
one row). -/
def vecSub (u v : List ℚ) : List ℚ := List.zipWith (fun a b => a - b) u v

/-- `np.linalg.norm(w)`: Euclidean norm of a vector. -/
noncomputable def norm2 (w : List ℚ) : ℝ :=
  Real.sqrt ((w.map (fun x : ℚ => ((x : ℝ)) ^ 2)).sum)

/-- `Ensemble.computeDists`: stack the descriptor vectors (`ngdvs`) and
emit the `n × m` matrix whose column `i` is
`np.linalg.norm(dat - dat[lm_idx[i]], axis=1)`.  When `prune` never ran
(`self.lm_sigs` missing), `m = n` and `lm_idx = np.arange(n)`.  The
column loop of the source is written row-major here. -/
noncomputable def computeDists (ngdvs : List (List ℚ)) (lm : Option (List ℕ)) :
    List (List ℝ) :=
  let n := ngdvs.length
  let lmIdx := lm.getD (List.range n)
  (List.range n).map (fun r =>
    lmIdx.map (fun l => norm2 (vecSub (ngdvs.getD r []) (ngdvs.getD l []))))

/-- Euclidean distance between two equal-length vectors, as the spec
words it ("the Euclidean distance from every signature's descriptor
vector to the landmark's descriptor vector"). -/
noncomputable def euclidDist (u v : List ℚ) : ℝ :=
  Real.sqrt ((List.zipWith (fun a b => (((a - b) : ℚ) : ℝ) ^ 2) u v).sum)

/-- The `Ensemble` state touched by `detectDistOutliers`. -/
structure EnsembleState where
  dists : List (List ℚ)
  valid_cols : Option (List ℕ)
  valid_rows : Option (List ℕ)
  invalid_rows : List ℕ
  lm_idx : List ℕ
deriving DecidableEq, Repr

/-- `np.min(row)` for one row; empty rows are a numpy error (unreached
under the shape hypotheses used below). -/
def rowMinQ : List ℚ → ℚ
  | [] => 0
  | h :: t => t.foldl min h

/-- `Ensemble.detectDistOutliers(mode, thresh)` on the coordinator.
The `"agglomerative"` branch delegates to scipy's hierarchical
clustering and is abstracted as the collaborator `agglom`; the
`"cutoff"` branch is `valid_cols = arange(m)`,
`valid_rows = argwhere(min(dists, axis=1) < thresh)`,
`invalid_rows = argwhere(min(dists, axis=1) >= thresh)`.  Any other
`mode` (including the default `None`) matches no branch and the method
falls through, leaving the state untouched. -/
def detectDistOutliers (agglom : EnsembleState → EnsembleState)
    (st : EnsembleState) (mode : Option String) (thresh : ℚ) : EnsembleState :=
  if mode = some "agglomerative" then agglom st
  else if mode = some "cutoff" then
    let n := st.dists.length
    let m := shape1 st.dists
    let d := st.dists.map rowMinQ
    { st with
      valid_cols := some (List.range m),
      valid_rows := some ((List.range n).filter (fun i => d.getD i 0 < thresh)),
      invalid_rows := (List.range n).filter (fun i => thresh ≤ d.getD i 0) }
  else st

/-! ## `dmap.py` — `DMap.build` -/

/-- `np.median` of a flattened float array: middle of the ascending
sort for odd length, mean of the two middles for even length.  Empty
input yields NaN in numpy (unreached below), modelled as 0. -/
def npMedian (l : List ℚ) : ℚ :=
  let s := List.insertionSort (· ≤ ·) l
  let n := s.length
  if n = 0 then 0
  else if n % 2 = 1 then s.getD (n / 2) 0
  else (s.getD (n / 2 - 1) 0 + s.getD (n / 2) 0) / 2

/-- Row selection `M[idxs, :]`. -/
def selRows {α : Type} (dflt : List α) (M : List (List α)) (idxs : List ℕ) :
    List (List α) :=
  idxs.map (fun i => M.getD i dflt)

/-- Column selection `M[:, idxs]`. -/
def selCols (dflt : ℚ) (M : List (List ℚ)) (idxs : List ℕ) : List (List ℚ) :=
  M.map (fun row => idxs.map (fun j => row.getD j dflt))

/-- `np.zeros((r, c)) * np.nan`: an `r × c` all-NaN matrix. -/
def nanMat (r c : ℕ) : List (List RVal) :=
  List.replicate r (List.replicate c RVal.nan)

/-- Fancy-index row assignment `base[idxs, :] = vals`. -/
def scatterRows (base : List (List RVal)) (idxs : List ℕ)
    (vals : List (List RVal)) : List (List RVal) :=
  (idxs.zip vals).foldl (fun acc p => acc.set p.1 p.2) base

/-- Lift a rational matrix (an eigensolver output) into the float-value
world. -/
def toRMat (M : List (List ℚ)) : List (List RVal) :=
  M.map (fun row => row.map RVal.fin)

/-- The mutable fields of a `DMap` object.  `alpha` does not appear:
the map `x ↦ x ** alpha` is the opaque parameter `phi` of `build`
(real powers have no exact rational model; `alpha = 1.0`, the default,
is `phi = id`). -/
structure DMapState where
  num_evec : ℕ
  epsilon : Option ℚ
  evals : Option (List ℚ)
  evecs : Option (List (List RVal))
  evecs_ny : Option (List (List RVal))
  coords : Option (List (List RVal))
  color_coords : Option (List (List RVal))
deriving DecidableEq, Repr

/-- `DMap.build(dists, landmarks, valid_cols, valid_rows)`.

`solve D num_evec eps` stands for the `PyDMap` eigensolver sequence
`set_dists(D); set_num_evec(n); set_epsilon(eps); compute()` followed by
`get_eval()/get_evec()`, and `nystromF D num_evec eps L` for
`PyDMap.nystrom(self._cpp, L)` on the same solver state; both are
opaque external collaborators returning finite matrices.

Returns the updated state and the raised exception, if any (Python
keeps all mutations made before a raise, which the pair mirrors).
When `landmarks is None` the source sets `self.evecs_ny = None` and the
unconditional backfill `evecs_ny[valid_rows,:] = np.array(self.evecs_ny)`
then raises `TypeError` — `np.array(None)` is an object scalar that
cannot be cast into a float array (the conversion precedes the
scatter).  The later `if self.evecs_ny is None` branch choosing
`R = self.evecs` is therefore unreachable. -/
def DMap.build (phi : ℚ → ℚ)
    (solve : List (List ℚ) → ℕ → ℚ → List ℚ × List (List ℚ))
    (nystromF : List (List ℚ) → ℕ → ℚ → List (List ℚ) → List (List ℚ))
    (st : DMapState) (dists : List (List ℚ))
    (landmarks : Option (List ℕ))
    (valid_cols valid_rows : Option (List ℕ)) :
    DMapState × Option String :=
  let n := dists.length
  let m := shape1 dists
  let vr := valid_rows.getD (List.range n)
  let vc := valid_cols.getD (List.range m)
  let alpha_dists := dists.map (fun row => row.map phi)
  let D := match landmarks with
    | none => selCols 0 (selRows [] alpha_dists vr) vc
    | some lms => selCols 0 (selRows [] alpha_dists lms) vc
  let Lny : Option (List (List ℚ)) := match landmarks with
    | none => none
    | some _ => some (selCols 0 (selRows [] alpha_dists vr) vc)
  let eps := match st.epsilon with
    | none => npMedian alpha_dists.flatten
    | some e => e
  let solved := solve D st.num_evec eps
  let evecs1 := scatterRows (nanMat m st.num_evec) vc (toRMat solved.2)
  let st1 := { st with
    epsilon := some eps, evals := some solved.1, evecs := some evecs1 }
  match Lny with
  | none =>
      ({ st1 with evecs_ny := none },
       some "TypeError: float() argument cannot be None (np.array(None) assigned into a float array)")
  | some L =>
      let evecs_ny1 :=
        scatterRows (nanMat n st.num_evec) vr (toRMat (nystromF D st.num_evec eps L))
      let R := evecs_ny1
      let cc0 := rankTransform R
      let cc1 := cc0.map (fun row => row.set 0 (RVal.fin (1 / 2)))
      let cc2 := cc1.map (fun row =>
        if (row.getLastD RVal.nan).isNaN then row.map (fun _ => RVal.fin 1) else row)
      ({ st1 with
          evecs_ny := some evecs_ny1,
          coords := some R,
          color_coords := some cc2 }, none)

/-! ## Helper lemmas -/

/-- `build` always stores a kernel bandwidth: the one already configured,
or else the median of the α-scaled distance matrix. -/
theorem build_fst_epsilon (phi : ℚ → ℚ)
    (solve : List (List ℚ) → ℕ → ℚ → List ℚ × List (List ℚ))
    (nystromF : List (List ℚ) → ℕ → ℚ → List (List ℚ) → List (List ℚ))
    (st : DMapState) (dists : List (List ℚ))
    (landmarks valid_cols valid_rows : Option (List ℕ)) :
    (DMap.build phi solve nystromF st dists landmarks valid_cols valid_rows).1.epsilon
      = some (st.epsilon.getD (npMedian ((dists.map (fun row => row.map phi)).flatten))) := by
  obtain ⟨ne, eps, ev, evec, evny, co, cc⟩ := st
  cases landmarks <;> cases eps <;> rfl

/-! ## Claim theorems -/

/-- C1: FALSE of the code (code bug).  `DMap.build` with
`landmarks=None` does select the full valid submatrix for the
eigensolver, but it does *not* successfully derive coordinates and
color coordinates: `self.evecs_ny` is `None` and the unconditional
backfill `evecs_ny[valid_rows,:] = np.array(self.evecs_ny)` raises
`TypeError`, before `coords`/`color_coords` are ever assigned.  This
holds for every distance matrix, every valid-row/column choice, and
every eigensolver. -/
theorem build_no_landmarks_raises (phi : ℚ → ℚ)
    (solve : List (List ℚ) → ℕ → ℚ → List ℚ × List (List ℚ))
    (nystromF : List (List ℚ) → ℕ → ℚ → List (List ℚ) → List (List ℚ))
    (st : DMapState) (dists : List (List ℚ))
    (valid_cols valid_rows : Option (List ℕ)) :
    (DMap.build phi solve nystromF st dists none valid_cols valid_rows).2
      = some "TypeError: float() argument cannot be None (np.array(None) assigned into a float array)"
    ∧ (DMap.build phi solve nystromF st dists none valid_cols valid_rows).1.coords
        = st.coords
    ∧ (DMap.build phi solve nystromF st dists none valid_cols valid_rows).1.color_coords
        = st.color_coords := by
  exact ⟨rfl, rfl, rfl⟩

/-- C4 (amended): for every `mode` other than `"agglomerative"` and
`"cutoff"` (including the default `None`), `detectDistOutliers` matches
no branch and returns with `valid_rows`, `valid_cols`, `invalid_rows`
and `lm_idx` unchanged; no error is raised. -/
theorem detectDistOutliers_unknown_mode_noop
    (agglom : EnsembleState → EnsembleState) (st : EnsembleState)
    (mode : Option String) (thresh : ℚ)
    (h1 : mode ≠ some "agglomerative") (h2 : mode ≠ some "cutoff") :
    detectDistOutliers agglom st mode thresh = st := by
  simp [detectDistOutliers, h1, h2]

/-- C4 witness: a concrete unknown mode hits the amended theorem. -/
theorem detectDistOutliers_unknown_mode_noop_witness :
    (some "median" : Option String) ≠ some "agglomerative"
    ∧ (some "median" : Option String) ≠ some "cutoff"
    ∧ detectDistOutliers id ⟨[[1]], none, none, [], []⟩ (some "median") 0
        = ⟨[[1]], none, none, [], []⟩ :=
  ⟨by decide, by decide,
   detectDistOutliers_unknown_mode_noop id ⟨[[1]], none, none, [], []⟩
     (some "median") 0 (by decide) (by decide)⟩

/-- C4 counterexample: the claim as stated is false — on mode
`"median"` the method does not fail; it returns with the state
(valid rows/cols, invalid rows, landmark indices) unchanged. -/
theorem detectDistOutliers_unknown_mode_no_error :
    detectDistOutliers id ⟨[[1]], none, none, [], []⟩ (some "median") 0
      = ⟨[[1]], none, none, [], []⟩ := by
  decide

/-- C5: in `"cutoff"` mode, `valid_rows` is exactly the set of row
indices whose minimum distance across all columns is strictly below the
threshold, `invalid_rows` is its exact complement over all row indices,
and every column is marked valid. -/
theorem detectDistOutliers_cutoff (agglom : EnsembleState → EnsembleState)
    (st : EnsembleState) (T : ℚ) :
    (∀ i : ℕ,
        i ∈ (detectDistOutliers agglom st (some "cutoff") T).valid_rows.getD []
          ↔ i < st.dists.length ∧ rowMinQ (st.dists.getD i []) < T)
    ∧ (∀ i : ℕ,
        i ∈ (detectDistOutliers agglom st (some "cutoff") T).invalid_rows
          ↔ i < st.dists.length
            ∧ i ∉ (detectDistOutliers agglom st (some "cutoff") T).valid_rows.getD [])
    ∧ (detectDistOutliers agglom st (some "cutoff") T).valid_cols
        = some (List.range (shape1 st.dists)) := by
  have hd : ∀ i : ℕ, i < st.dists.length →
      (st.dists.map rowMinQ).getD i 0 = rowMinQ (st.dists.getD i []) := by
    intro i hi
    rw [List.getD_eq_getElem?_getD, List.getD_eq_getElem?_getD,
      List.getElem?_map, List.getElem?_eq_getElem hi]
    rfl
  have hcut : detectDistOutliers agglom st (some "cutoff") T =
      { st with
        valid_cols := some (List.range (shape1 st.dists)),
        valid_rows := some ((List.range st.dists.length).filter
          (fun i => (st.dists.map rowMinQ).getD i 0 < T)),
        invalid_rows := (List.range st.dists.length).filter
          (fun i => T ≤ (st.dists.map rowMinQ).getD i 0) } := by
    unfold detectDistOutliers
    rw [if_neg (by decide), if_pos rfl]
  rw [hcut]
  refine ⟨fun i => ?_, fun i => ?_, rfl⟩
  · simp only [Option.getD_some, List.mem_filter, List.mem_range, decide_eq_true_eq]
    constructor
    · rintro ⟨hi, hlt⟩; exact ⟨hi, by rwa [hd i hi] at hlt⟩
    · rintro ⟨hi, hlt⟩; exact ⟨hi, by rwa [hd i hi]⟩
  · simp only [Option.getD_some, List.mem_filter, List.mem_range, decide_eq_true_eq]
    constructor
    · rintro ⟨hi, hle⟩
      refine ⟨hi, fun h => ?_⟩
      exact absurd h.2 (not_lt.2 hle)
    · rintro ⟨hi, hnot⟩
      refine ⟨hi, not_lt.1 fun hlt => hnot ⟨hi, hlt⟩⟩

/-- C10: if no kernel bandwidth is configured, `build` stores the
median of the α-scaled distance matrix into `self.epsilon`, and every
subsequent `build` on the same object keeps that stored bandwidth
instead of recomputing it from the new distances. -/
theorem build_epsilon_persists (phi phi2 : ℚ → ℚ)
    (solve solve2 : List (List ℚ) → ℕ → ℚ → List ℚ × List (List ℚ))
    (nystromF nystromF2 : List (List ℚ) → ℕ → ℚ → List (List ℚ) → List (List ℚ))
    (st : DMapState) (d1 d2 : List (List ℚ))
    (lm1 lm2 vc1 vr1 vc2 vr2 : Option (List ℕ))
    (h0 : st.epsilon = none) (h1 : d1.flatten ≠ []) :
    (DMap.build phi solve nystromF st d1 lm1 vc1 vr1).1.epsilon
      = some (npMedian ((d1.map (fun row => row.map phi)).flatten))
    ∧ (DMap.build phi2 solve2 nystromF2
          (DMap.build phi solve nystromF st d1 lm1 vc1 vr1).1 d2 lm2 vc2 vr2).1.epsilon
        = (DMap.build phi solve nystromF st d1 lm1 vc1 vr1).1.epsilon := by
  have e1 : (DMap.build phi solve nystromF st d1 lm1 vc1 vr1).1.epsilon
      = some (npMedian ((d1.map (fun row => row.map phi)).flatten)) := by
    rw [build_fst_epsilon, h0]; rfl
  refine ⟨e1, ?_⟩
  rw [build_fst_epsilon, e1]
  rfl

/-- C10 witness: a fresh `DMap` (`epsilon = None`) built on
`dists = [[1, 3]]` stores `epsilon = median([1,3]) = 2`, and a second
build on `dists = [[5]]` keeps `epsilon = 2`. -/
theorem build_epsilon_persists_witness :
    (⟨1, none, none, none, none, none, none⟩ : DMapState).epsilon = none
    ∧ ([[ (1 : ℚ), 3 ]] : List (List ℚ)).flatten ≠ []
    ∧ (DMap.build id (fun _ _ _ => ([1], [[1]])) (fun _ _ _ _ => [[1]])
        ⟨1, none, none, none, none, none, none⟩ [[1, 3]] (some [0]) (some [0]) (some [0])).1.epsilon
        = some (npMedian (([[ (1 : ℚ), 3 ]] : List (List ℚ)).map (fun row => row.map id)).flatten)
    ∧ (DMap.build id (fun _ _ _ => ([1], [[1]])) (fun _ _ _ _ => [[1]])
        (DMap.build id (fun _ _ _ => ([1], [[1]])) (fun _ _ _ _ => [[1]])
          ⟨1, none, none, none, none, none, none⟩ [[1, 3]] (some [0]) (some [0]) (some [0])).1
        [[5]] (some [0]) (some [0]) (some [0])).1.epsilon
        = (DMap.build id (fun _ _ _ => ([1], [[1]])) (fun _ _ _ _ => [[1]])
            ⟨1, none, none, none, none, none, none⟩ [[1, 3]] (some [0]) (some [0]) (some [0])).1.epsilon := by
  refine ⟨rfl, by decide, ?_⟩
  exact build_epsilon_persists id id _ _ _ _
    ⟨1, none, none, none, none, none, none⟩ [[1, 3]] [[5]]
    (some [0]) (some [0]) (some [0]) (some [0]) (some [0]) (some [0])
    rfl (by decide)

/-- C2 counterexample: on the criterion array `[5, 5]` with
`num_top = 1`, the two values tie; the claim's tie rule (original index
order) would select index 0, but `prune` reverses the ascending argsort
and therefore selects index 1. -/
theorem prune_num_top_tie_break :
    prune [5, 5] [] "frequency" (some 1) none none = (some [1], none)
    ∧ ([1] : List ℕ) ≠ [0] := by
  decide

/-- C2 (amended): `prune` with `num_top` selects the indices of the
`num_top` largest criterion values, breaking ties between equal values
by *descending* original index (the reversed stable argsort prefers the
largest tied index), and returns them sorted ascending without
duplicates.  Every unselected index loses to every selected one under
the (value, then index) order. -/
theorem prune_num_top_selection (vals : List ℚ) (k : ℕ) :
    (prune vals [] "frequency" (some k) none none).2 = none
    ∧ ((prune vals [] "frequency" (some k) none none).1.getD []).Sorted (· < ·)
    ∧ ((prune vals [] "frequency" (some k) none none).1.getD []).length
        = min k vals.length
    ∧ (∀ i ∈ (prune vals [] "frequency" (some k) none none).1.getD [],
        i < vals.length)
    ∧ (∀ i ∈ (prune vals [] "frequency" (some k) none none).1.getD [],
        ∀ j, j < vals.length →
          j ∉ (prune vals [] "frequency" (some k) none none).1.getD [] →
          vals.getD j 0 < vals.getD i 0
            ∨ (vals.getD j 0 = vals.getD i 0 ∧ j < i)) := by
  have hres : (prune vals [] "frequency" (some k) none none).1.getD []
      = List.insertionSort (· ≤ ·) (((argsortAsc vals).reverse).take k) := rfl
  have herr : (prune vals [] "frequency" (some k) none none).2 = none := rfl
  set A := argsortAsc vals with hA
  set lm := List.insertionSort (· ≤ ·) ((A.reverse).take k) with hlm
  have hpermA : List.Perm A (List.range vals.length) := List.perm_insertionSort _ _
  have hsortA : A.Sorted (lexLe vals) := List.sorted_insertionSort _ _
  have hnodupA : A.Nodup := hpermA.nodup_iff.mpr (List.nodup_range _)
  have hrevsort : A.reverse.Sorted (fun a b => lexLe vals b a) :=
    List.pairwise_reverse.mpr hsortA
  have hpermlm : List.Perm lm ((A.reverse).take k) := List.perm_insertionSort _ _
  have hmemlm : ∀ {i : ℕ}, i ∈ lm ↔ i ∈ (A.reverse).take k :=
    fun {i} => hpermlm.mem_iff
  have hsortlm : lm.Sorted (· ≤ ·) := List.sorted_insertionSort _ _
  have hnoduplm : lm.Nodup :=
    hpermlm.nodup_iff.mpr
      (((List.nodup_reverse).mpr hnodupA).sublist (List.take_sublist _ _))
  have hrevlen : A.reverse.length = vals.length := by
    rw [List.length_reverse]
    exact hpermA.length_eq.trans (List.length_range _)
  have hmemA : ∀ {i : ℕ}, i ∈ A ↔ i < vals.length := by
    intro i
    rw [hpermA.mem_iff, List.mem_range]
  refine ⟨herr, ?_, ?_, ?_, ?_⟩
  · rw [hres]
    exact List.Sorted.lt_of_le hsortlm hnoduplm
  · rw [hres, hpermlm.length_eq, List.length_take, hrevlen]
  · intro i hi
    rw [hres] at hi
    have := (List.take_sublist k A.reverse).subset (hmemlm.mp hi)
    exact hmemA.mp (List.mem_reverse.mp this)
  · intro i hi j hj hjn
    rw [hres] at hi hjn
    have hita : i ∈ (A.reverse).take k := hmemlm.mp hi
    have hjrev : j ∈ A.reverse := List.mem_reverse.mpr (hmemA.mpr hj)
    have hjd : j ∈ (A.reverse).drop k := by
      have hsplit : j ∈ List.take k A.reverse ++ List.drop k A.reverse := by
        rw [List.take_append_drop]; exact hjrev
      rcases List.mem_append.mp hsplit with h | h
      · exact absurd (hmemlm.mpr h) hjn
      · exact h
    have hle : lexLe vals j i :=
      List.Sorted.rel_of_mem_take_of_mem_drop hrevsort hita hjd
    have hne : j ≠ i := fun he => hjn (he ▸ hi)
    rcases hle with h | ⟨he, hji⟩
    · exact Or.inl h
    · exact Or.inr ⟨he, lt_of_le_of_ne hji hne⟩

/-- C3 counterexample: supplying two selector arguments
(`num_top = 1` and `min_freq = 0`) does not fail: `prune` follows the
`num_top` branch and returns landmark `[0]` with no error, although the
claim requires a `ConfigurationError` whenever more than one selector
is supplied. -/
theorem prune_two_selectors_no_error :
    prune [5] [] "frequency" (some 1) (some 0) none = (some [0], none) := by
  decide

/-- C3 (amended): `prune` requires *at least* one of the three selector
arguments: it raises exactly when none of `num_top`, `min_freq`,
`min_percentile` is supplied (leaving the landmark set empty), and when
several are supplied no error is raised — `num_top` takes precedence
over `min_freq`, which takes precedence over `min_percentile`. -/
theorem prune_selector_precedence (counts sizes : List ℚ)
    (nt : Option ℕ) (mf mp : Option ℚ) (k : ℕ) (f : ℚ) :
    ((prune counts sizes "frequency" nt mf mp).2 ≠ none
        ↔ (nt = none ∧ mf = none ∧ mp = none))
    ∧ (prune counts sizes "frequency" none none none).1 = some []
    ∧ (nt = some k →
        prune counts sizes "frequency" nt mf mp
          = prune counts sizes "frequency" (some k) none none)
    ∧ (nt = none → mf = some f →
        prune counts sizes "frequency" nt mf mp
          = prune counts sizes "frequency" none (some f) none) := by
  refine ⟨?_, rfl, ?_, ?_⟩
  · cases nt <;> cases mf <;> cases mp <;> simp [prune]
  · rintro rfl
    cases mf <;> cases mp <;> rfl
  · rintro rfl rfl
    cases mp <;> rfl

/-- C3 witness: with `num_top = 1` and `min_freq = 0` both supplied on
counts `[5]`, no error is raised and the `num_top` branch is followed. -/
theorem prune_selector_precedence_witness :
    ¬ ((prune [5] [] "frequency" (some 1) (some 0) none).2 ≠ none)
    ∧ prune [5] [] "frequency" (some 1) (some 0) none
        = prune [5] [] "frequency" (some 1) none none := by
  have h := prune_selector_precedence [5] [] (some 1) (some 0) none 1 0
  refine ⟨fun hne => ?_, h.2.2.1 rfl⟩
  have := h.1.mp hne
  exact Option.some_ne_none 1 this.1

/-- Indexing a mapped range: entry `i` of `(range n).map f`. -/
theorem getD_map_range {α : Type} (f : ℕ → α) (n i : ℕ) (d : α) (hi : i < n) :
    (((List.range n).map f).getD i d) = f i := by
  rw [List.getD_eq_getElem?_getD, List.getElem?_map, List.getElem?_range hi]
  rfl

/-- Indexing a mapped list: entry `j` of `l.map g` (the defaults are
irrelevant in range). -/
theorem getD_map_list {α β : Type} (g : α → β) (l : List α)
    (j : ℕ) (d : β) (da : α) (hj : j < l.length) :
    ((l.map g).getD j d) = g (l.getD j da) := by
  rw [List.getD_eq_getElem?_getD, List.getElem?_map, List.getElem?_eq_getElem hj,
    List.getD_eq_getElem?_getD, List.getElem?_eq_getElem hj]
  rfl

/-- `np.linalg.norm(u - v)` is the Euclidean distance between `u` and
`v`. -/
theorem norm2_vecSub_eq_euclidDist (u v : List ℚ) :
    norm2 (vecSub u v) = euclidDist u v := by
  unfold norm2 vecSub euclidDist
  rw [List.map_zipWith]

/-- The Euclidean distance from a vector to itself is exactly zero. -/
theorem norm2_vecSub_self (u : List ℚ) : norm2 (vecSub u u) = 0 := by
  unfold norm2 vecSub
  rw [List.zipWith_same]
  have hz : ((u.map (fun a => a - a)).map (fun x : ℚ => ((x : ℚ) : ℝ) ^ 2)).sum = 0 := by
    apply List.sum_eq_zero
    intro x hx
    rcases List.mem_map.mp hx with ⟨y, hy, rfl⟩
    rcases List.mem_map.mp hy with ⟨a, _, rfl⟩
    simp
  rw [hz, Real.sqrt_zero]

/-- C6: `computeDists` on a library of `n` equal-length descriptor
vectors produces an `n × m` matrix whose `(i, j)` entry is the
Euclidean distance from signature `i`'s descriptor vector to the `j`-th
landmark's descriptor vector; with no landmarks designated, `m = n`
(column `j` belongs to signature `j`) and the diagonal is exactly 0. -/
theorem computeDists_euclid (ngdvs : List (List ℚ)) (d : ℕ)
    (hlen : ∀ v ∈ ngdvs, v.length = d) :
    (computeDists ngdvs none).length = ngdvs.length
    ∧ (∀ row ∈ computeDists ngdvs none, row.length = ngdvs.length)
    ∧ (∀ lmIdx : List ℕ, ∀ i j : ℕ, i < ngdvs.length → j < lmIdx.length →
        (((computeDists ngdvs (some lmIdx)).getD i []).getD j 0)
          = euclidDist (ngdvs.getD i []) (ngdvs.getD (lmIdx.getD j 0) []))
    ∧ (∀ i j : ℕ, i < ngdvs.length → j < ngdvs.length →
        (((computeDists ngdvs none).getD i []).getD j 0)
          = euclidDist (ngdvs.getD i []) (ngdvs.getD j []))
    ∧ (∀ i : ℕ, i < ngdvs.length →
        (((computeDists ngdvs none).getD i []).getD i 0) = 0) := by
  clear hlen
  refine ⟨?_, ?_, ?_, ?_, ?_⟩
  · simp only [computeDists, Option.getD_none]
    rw [List.length_map, List.length_range]
  · intro row hrow
    simp only [computeDists, Option.getD_none] at hrow
    rcases List.mem_map.mp hrow with ⟨i, _, rfl⟩
    rw [List.length_map, List.length_range]
  · intro lmIdx i j hi hj
    simp only [computeDists, Option.getD_some]
    rw [getD_map_range _ _ _ _ hi, getD_map_list _ _ _ _ 0 hj,
      norm2_vecSub_eq_euclidDist]
  · intro i j hi hj
    simp only [computeDists, Option.getD_none]
    rw [getD_map_range _ _ _ _ hi]
    have hr : (List.range ngdvs.length).length = ngdvs.length := List.length_range _
    rw [getD_map_list _ _ _ _ 0 (by rwa [hr]), norm2_vecSub_eq_euclidDist]
    congr 2
    rw [List.getD_eq_getElem?_getD, List.getElem?_range hj]
    rfl
  · intro i hi
    simp only [computeDists, Option.getD_none]
    rw [getD_map_range _ _ _ _ hi]
    have hr : (List.range ngdvs.length).length = ngdvs.length := List.length_range _
    rw [getD_map_list _ _ _ _ 0 (by rwa [hr])]
    have : (List.range ngdvs.length).getD i 0 = i := by
      rw [List.getD_eq_getElem?_getD, List.getElem?_range hi]
      rfl
    rw [this, norm2_vecSub_self]

/-- C6 witness: a two-signature library with descriptors `[0]` and
`[1]` satisfies the equal-length hypothesis and the theorem applies. -/
theorem computeDists_euclid_witness :
    (∀ v ∈ ([[0], [1]] : List (List ℚ)), v.length = 1)
    ∧ ((computeDists [[0], [1]] none).length = 2
      ∧ (∀ row ∈ computeDists ([[0], [1]] : List (List ℚ)) none, row.length = 2)
      ∧ (∀ lmIdx : List ℕ, ∀ i j : ℕ, i < 2 → j < lmIdx.length →
          (((computeDists ([[0], [1]] : List (List ℚ)) (some lmIdx)).getD i []).getD j 0)
            = euclidDist (([[0], [1]] : List (List ℚ)).getD i [])
                (([[0], [1]] : List (List ℚ)).getD (lmIdx.getD j 0) []))
      ∧ (∀ i j : ℕ, i < 2 → j < 2 →
          (((computeDists ([[0], [1]] : List (List ℚ)) none).getD i []).getD j 0)
            = euclidDist (([[0], [1]] : List (List ℚ)).getD i [])
                (([[0], [1]] : List (List ℚ)).getD j []))
      ∧ (∀ i : ℕ, i < 2 →
          (((computeDists ([[0], [1]] : List (List ℚ)) none).getD i []).getD i 0) = 0)) :=
  ⟨by decide, computeDists_euclid [[0], [1]] 1 (by decide)⟩

/-! ## Lemmas on the float model and `np.interp` -/

/-- `v == v` is exactly the non-NaN test. -/
theorem RVal.eqb_self (v : RVal) : RVal.eqb v v = !v.isNaN := by
  cases v <;> simp [RVal.eqb, RVal.isNaN]

/-- `npLe` on finite values is the rational order. -/
theorem npLe_fin {a b : ℚ} : npLe (.fin a) (.fin b) ↔ a ≤ b := Iff.rfl

/-- `leb` on finite values is the rational order. -/
theorem RVal.leb_fin {a b : ℚ} : RVal.leb (.fin a) (.fin b) = true ↔ a ≤ b := by
  simp [RVal.leb, RVal.ltb, RVal.eqb, le_iff_lt_or_eq]

/-- `ltb` on finite values is the strict rational order. -/
theorem RVal.ltb_fin {a b : ℚ} : RVal.ltb (.fin a) (.fin b) = true ↔ a < b := by
  simp [RVal.ltb]

/-- A NaN query interpolates to NaN. -/
theorem interp_nan (xs : List RVal) (ys : List ℚ) :
    interp RVal.nan xs ys = RVal.nan := rfl

/-- `orderedInsert` of a finite value into a finite list agrees with the
rational-level insertion. -/
theorem orderedInsert_fin (a : ℚ) (qs : List ℚ) :
    List.orderedInsert npLe (.fin a) (qs.map .fin)
      = (List.orderedInsert (· ≤ ·) a qs).map .fin := by
  induction qs with
  | nil => rfl
  | cons q0 qt ih =>
    simp only [List.map_cons, List.orderedInsert]
    by_cases h : a ≤ q0
    · rw [if_pos h, if_pos (npLe_fin.mpr h)]
      rfl
    · rw [if_neg h, if_neg (fun hc => h (npLe_fin.mp hc))]
      simp [ih]

/-- `npSort` of a finite list agrees with the rational-level sort. -/
theorem npSort_map_fin (qs : List ℚ) :
    npSort (qs.map .fin) = (List.insertionSort (· ≤ ·) qs).map .fin := by
  unfold npSort
  induction qs with
  | nil => rfl
  | cons q0 qt ih =>
    simp only [List.map_cons, List.insertionSort, ih, orderedInsert_fin]

/-- The finite values of a float list, in order. -/
def finVals (col : List RVal) : List ℚ :=
  col.filterMap (fun v => match v with | .fin q => some q | _ => none)

/-- A list of finite values is the image of its rational values. -/
theorem all_fin_eq_map {col : List RVal} (h : ∀ v ∈ col, v.isFin = true) :
    col = (finVals col).map .fin := by
  induction col with
  | nil => rfl
  | cons v t ih =>
    have hv := h v (List.mem_cons_self _ _)
    cases v with
    | fin q =>
        simp only [finVals, List.filterMap_cons]
        rw [List.map_cons]
        exact congrArg _ (ih fun w hw => h w (List.mem_cons_of_mem _ hw))
    | pinf => simp [RVal.isFin] at hv
    | ninf => simp [RVal.isFin] at hv
    | nan => simp [RVal.isFin] at hv

/-- Unfolding `interp` on a finite query and nonempty samples. -/
theorem interp_fin_cons (q q0 : ℚ) (xt : List RVal) (y0 : ℚ) (yt : List ℚ) :
    interp (.fin q) (.fin q0 :: xt) (y0 :: yt)
      = if RVal.ltb (.fin q) (.fin q0) = true then RVal.fin y0
        else interpGo (.fin q) (.fin q0 :: xt) (y0 :: yt) := rfl

/-- In a strictly sorted list the head is the least element
(by position). -/
theorem sorted_lt_head_le_getD (l : List ℚ) (h : l.Sorted (· < ·))
    (k : ℕ) (hk : k < l.length) (d : ℚ) : l.getD 0 d ≤ l.getD k d := by
  have h0 : 0 < l.length := Nat.lt_of_le_of_lt (Nat.zero_le _) hk
  rw [List.getD_eq_getElem l d h0, List.getD_eq_getElem l d hk]
  rcases Nat.eq_zero_or_pos k with rfl | hpos
  · exact le_refl _
  · exact le_of_lt (List.pairwise_iff_getElem.mp h 0 k h0 hk hpos)

/-- `interpGo` on a finite query over sorted finite samples with the
head below the query produces a finite value. -/
theorem interpGo_fin (q : ℚ) : ∀ (q0 : ℚ) (qt : List ℚ) (y0 : ℚ) (ys1 : List ℚ),
    (q0 :: qt).Sorted (· ≤ ·) → ys1.length = qt.length → q0 ≤ q →
    ∃ c : ℚ, interpGo (.fin q) ((q0 :: qt).map .fin) (y0 :: ys1) = .fin c
  | q0, [], y0, ys1, _, hlen, _ => by
      match ys1, hlen with
      | [], _ => exact ⟨y0, rfl⟩
  | q0, q1 :: qt, y0, ys1, hsort, hlen, hq0 => by
      match ys1, hlen with
      | y1 :: yt, hlen =>
        simp only [List.map_cons, interpGo]
        by_cases h : q1 ≤ q
        · rw [if_pos (RVal.leb_fin.mpr h)]
          have ih := interpGo_fin q q1 qt y1 yt (List.Sorted.of_cons hsort)
            (by simpa using hlen) h
          simpa using ih
        · rw [if_neg (fun hc => h (RVal.leb_fin.mp hc))]
          have hq1 : q0 < q1 := lt_of_le_of_lt hq0 (lt_of_not_le h)
          have hne : ¬(q1 + -q0 = 0) := by
            intro hc
            have : q1 = q0 := by linarith
            exact absurd this (ne_of_gt hq1)
          exact ⟨(y1 - y0) / (q1 + -q0) * (q + -q0) + y0, by
            simp [RVal.sub, RVal.neg, RVal.add, RVal.div, RVal.mul, hne]⟩

/-- `np.interp` of a finite query over a nonempty ascending finite
sample list (with matching value list) is finite. -/
theorem interp_fin (q : ℚ) (qs ys : List ℚ) (hne : qs ≠ [])
    (hsort : qs.Sorted (· ≤ ·)) (hlen : ys.length = qs.length) :
    ∃ c : ℚ, interp (.fin q) (qs.map .fin) ys = .fin c := by
  match qs, ys, hlen with
  | [], _, _ => exact absurd rfl hne
  | q0 :: qt, y0 :: yt, hlen =>
    rw [List.map_cons, interp_fin_cons]
    by_cases h : q < q0
    · rw [if_pos (RVal.ltb_fin.mpr h)]
      exact ⟨y0, rfl⟩
    · rw [if_neg (fun hc => h (RVal.ltb_fin.mp hc))]
      have := interpGo_fin q q0 qt y0 yt hsort (by simpa using hlen) (le_of_not_lt h)
      simpa using this

/-- `interpGo` queried exactly at sample `k` of a strictly ascending
sample list returns value `k`. -/
theorem interpGo_at_sample : ∀ (q0 : ℚ) (qt : List ℚ) (y0 : ℚ) (ys1 : List ℚ) (k : ℕ),
    (q0 :: qt).Sorted (· < ·) → ys1.length = qt.length → k < (q0 :: qt).length →
    interpGo (.fin ((q0 :: qt).getD k 0)) ((q0 :: qt).map .fin) (y0 :: ys1)
      = .fin ((y0 :: ys1).getD k 0)
  | q0, [], y0, ys1, k, _, hlen, hk => by
      match ys1, hlen with
      | [], _ =>
        match k, hk with
        | 0, _ => rfl
  | q0, q1 :: qt, y0, ys1, k, hsort, hlen, hk => by
      match ys1, hlen with
      | y1 :: yt, hlen =>
        match k, hk with
        | 0, _ =>
          simp only [List.getD_cons_zero, List.map_cons, interpGo]
          have hq1 : q0 < q1 :=
            List.rel_of_sorted_cons hsort q1 (List.mem_cons_self _ _)
          rw [if_neg (fun hc => absurd (RVal.leb_fin.mp hc) (not_le.mpr hq1))]
          have hne : ¬(q1 + -q0 = 0) := by
            intro hc
            have : q1 = q0 := by linarith
            exact absurd this (ne_of_gt hq1)
          have harith : (y1 - y0) / (q1 + -q0) * (q0 + -q0) + y0 = y0 := by ring
          simp [RVal.sub, RVal.neg, RVal.add, RVal.div, RVal.mul, hne, harith]
        | k' + 1, hk =>
          simp only [List.getD_cons_succ, List.map_cons, interpGo]
          have hk' : k' < (q1 :: qt).length := by
            simpa using Nat.lt_of_succ_lt_succ hk
          have hle : q1 ≤ (q1 :: qt).getD k' 0 :=
            sorted_lt_head_le_getD (q1 :: qt) (List.Sorted.of_cons hsort) k' hk' 0
          rw [if_pos (RVal.leb_fin.mpr hle)]
          have ih := interpGo_at_sample q1 qt y1 yt k'
            (List.Sorted.of_cons hsort) (by simpa using hlen) hk'
          simpa using ih

/-- `np.interp` queried exactly at sample `k` of a strictly ascending
sample list returns value `k` (numpy's empirical rank of a distinct
value). -/
theorem interp_at_sample (qs ys : List ℚ) (k : ℕ) (hsort : qs.Sorted (· < ·))
    (hlen : ys.length = qs.length) (hk : k < qs.length) :
    interp (.fin (qs.getD k 0)) (qs.map .fin) ys = .fin (ys.getD k 0) := by
  match qs, ys, hlen with
  | [], _, _ => exact absurd hk (by simp)
  | q0 :: qt, y0 :: yt, hlen =>
    rw [List.map_cons, interp_fin_cons]
    have hle : q0 ≤ (q0 :: qt).getD k 0 :=
      sorted_lt_head_le_getD (q0 :: qt) hsort k hk 0
    rw [if_neg (fun hc => absurd (RVal.ltb_fin.mp hc) (not_lt.mpr hle))]
    have := interpGo_at_sample q0 qt y0 yt k hsort (by simpa using hlen) hk
    simpa using this

/-! ## Lemmas on `linspace` and list plumbing -/

/-- `linspace n` has `n` entries. -/
theorem linspace_length (n : ℕ) : (linspace n).length = n := by
  simp [linspace]

/-- Entry `k` of `linspace n`. -/
theorem linspace_getD (n k : ℕ) (hk : k < n) :
    (linspace n).getD k 0 = (k : ℚ) / ((n : ℚ) - 1) := by
  unfold linspace
  rw [getD_map_range _ _ _ _ hk]

/-- `linspace` values lie in `[0, 1]`. -/
theorem linspace_getD_bounds (n k : ℕ) (hk : k < n) :
    0 ≤ (linspace n).getD k 0 ∧ (linspace n).getD k 0 ≤ 1 := by
  rw [linspace_getD n k hk]
  rcases Nat.lt_or_ge n 2 with h2 | h2
  · interval_cases n
    · exact absurd hk (by omega)
    · have : k = 0 := by omega
      subst this
      norm_num
  · have hpos : (0 : ℚ) < (n : ℚ) - 1 := by
      have : (2 : ℚ) ≤ (n : ℚ) := by exact_mod_cast h2
      linarith
    constructor
    · positivity
    · rw [div_le_one hpos]
      have : (k : ℚ) + 1 ≤ (n : ℚ) := by exact_mod_cast hk
      linarith

/-- `linspace` is strictly increasing in the index. -/
theorem linspace_strictMono (n k l : ℕ) (hkl : k < l) (hl : l < n) :
    (linspace n).getD k 0 < (linspace n).getD l 0 := by
  have h2 : 2 ≤ n := by omega
  rw [linspace_getD n k (by omega), linspace_getD n l hl]
  have hpos : (0 : ℚ) < (n : ℚ) - 1 := by
    have : (2 : ℚ) ≤ (n : ℚ) := by exact_mod_cast h2
    linarith
  have hkl' : (k : ℚ) < (l : ℚ) := by exact_mod_cast hkl
  exact div_lt_div_of_pos_right hkl' hpos

/-- First `linspace` value is 0 (also for `n = 1`, where numpy emits
`[0.]`). -/
theorem linspace_first (n : ℕ) (hn : 1 ≤ n) : (linspace n).getD 0 0 = 0 := by
  rw [linspace_getD n 0 hn]
  simp

/-- Last `linspace` value is 1 when there are at least two samples. -/
theorem linspace_last (n : ℕ) (hn : 2 ≤ n) : (linspace n).getD (n - 1) 0 = 1 := by
  rw [linspace_getD n (n - 1) (by omega)]
  have hne : ((n : ℚ) - 1) ≠ 0 := by
    have : (2 : ℚ) ≤ (n : ℚ) := by exact_mod_cast hn
    intro hc; linarith
  have hcast : ((n - 1 : ℕ) : ℚ) = (n : ℚ) - 1 := by
    have : 1 ≤ n := by omega
    push_cast [this]
    ring
  rw [hcast, div_self hne]

/-! ## Lemmas on the backfill scatter and matrix access -/

/-- Unfolding `scatterRows` one assignment at a time. -/
theorem scatterRows_cons (base : List (List RVal)) (i : ℕ) (it : List ℕ)
    (v : List RVal) (vt : List (List RVal)) :
    scatterRows base (i :: it) (v :: vt) = scatterRows (base.set i v) it vt := rfl

/-- `scatterRows` with no value rows is the identity. -/
theorem scatterRows_nil_vals (base : List (List RVal)) (idxs : List ℕ) :
    scatterRows base idxs [] = base := by
  cases idxs <;> rfl

/-- `scatterRows` preserves the number of rows. -/
theorem scatterRows_length : ∀ (idxs : List ℕ) (vals base : List (List RVal)),
    (scatterRows base idxs vals).length = base.length
  | [], vals, base => rfl
  | _ :: _, [], base => by rw [scatterRows_nil_vals]
  | i :: it, v :: vt, base => by
      rw [scatterRows_cons, scatterRows_length it vt, List.length_set]

/-- Rows not named in the index list keep their previous contents. -/
theorem scatterRows_untouched : ∀ (idxs : List ℕ) (vals base : List (List RVal))
    (r : ℕ), r ∉ idxs →
    (scatterRows base idxs vals).getD r [] = base.getD r []
  | [], vals, base, r, _ => rfl
  | _ :: _, [], base, r, _ => by rw [scatterRows_nil_vals]
  | i :: it, v :: vt, base, r, hr => by
      rw [scatterRows_cons,
        scatterRows_untouched it vt _ r (fun h => hr (List.mem_cons_of_mem _ h))]
      rw [List.getD_eq_getElem?_getD, List.getD_eq_getElem?_getD,
        List.getElem?_set_ne
          (fun h => hr (by rw [← h]; exact List.mem_cons_self _ _))]

/-- Row `idxs[k]` of the scatter result is value row `k` (for distinct
indices in range). -/
theorem scatterRows_touched : ∀ (idxs : List ℕ) (vals base : List (List RVal))
    (k : ℕ), idxs.Nodup → k < idxs.length → k < vals.length →
    idxs.getD k 0 < base.length →
    (scatterRows base idxs vals).getD (idxs.getD k 0) [] = vals.getD k []
  | [], vals, base, k, _, hk, _, _ => absurd hk (by simp)
  | i :: it, [], base, k, _, _, hkv, _ => absurd hkv (by simp)
  | i :: it, v :: vt, base, 0, hnd, _, _, hlt => by
      rw [scatterRows_cons, List.getD_cons_zero, List.getD_cons_zero]
      rw [scatterRows_untouched it vt _ i (List.Nodup.not_mem hnd)]
      rw [List.getD_eq_getElem?_getD, List.getElem?_set_self
        (by simpa using hlt)]
      rfl
  | i :: it, v :: vt, base, k + 1, hnd, hk, hkv, hlt => by
      rw [scatterRows_cons, List.getD_cons_succ, List.getD_cons_succ]
      refine scatterRows_touched it vt _ k (List.Nodup.of_cons hnd)
        (by simpa using hk) (by simpa using hkv) ?_
      have h1 : it.getD k 0 < base.length := by simpa using hlt
      simpa [List.length_set] using h1

/-- Any row property holding on the base rows and the value rows holds
on all rows of the scatter result. -/
theorem scatterRows_rows_prop (Q : List RVal → Prop) :
    ∀ (idxs : List ℕ) (vals base : List (List RVal)),
    (∀ row ∈ base, Q row) → (∀ row ∈ vals, Q row) →
    ∀ row ∈ scatterRows base idxs vals, Q row
  | [], vals, base, hb, _ => hb
  | _ :: _, [], base, hb, _ => by rw [scatterRows_nil_vals]; exact hb
  | i :: it, v :: vt, base, hb, hv => by
      rw [scatterRows_cons]
      refine scatterRows_rows_prop Q it vt _ ?_ ?_
      · intro row hrow
        rcases List.mem_or_eq_of_mem_set hrow with h | rfl
        · exact hb row h
        · exact hv _ (List.mem_cons_self _ _)
      · intro row hrow
        exact hv row (List.mem_cons_of_mem _ hrow)

/-- Reading the column matrix entrywise. -/
theorem column_getD (R : List (List RVal)) (i r : ℕ) (hr : r < R.length) :
    (column R i).getD r RVal.nan = (R.getD r []).getD i RVal.nan := by
  unfold column
  rw [getD_map_list _ _ _ _ [] hr]

/-- Every in-range matrix entry appears in its column. -/
theorem getD_mem_column (R : List (List RVal)) (i r : ℕ) (hr : r < R.length) :
    (R.getD r []).getD i RVal.nan ∈ column R i := by
  rw [← column_getD R i r hr]
  have hlen : (column R i).length = R.length := by simp [column]
  rw [List.getD_eq_getElem _ _ (by omega : r < (column R i).length)]
  exact List.getElem_mem _

/-- Row `r` of the interpolation pass `rankT0`. -/
theorem rankT0_getD (R : List (List RVal)) (r : ℕ) (hr : r < R.length) :
    (rankT0 R).getD r [] = (List.range (shape1 R)).map (fun i =>
      interp ((R.getD r []).getD i RVal.nan) (keptSorted (column R i))
        (linspace (keptSorted (column R i)).length)) := by
  unfold rankT0
  rw [getD_map_list _ _ _ _ [] hr]

/-- Row `r` of `rankTransform`: the interpolated row, NaN-forced when
its last entry is NaN. -/
theorem rankTransform_getD (R : List (List RVal)) (r : ℕ) (hr : r < R.length) :
    (rankTransform R).getD r [] =
      if (((rankT0 R).getD r []).getLastD RVal.nan).isNaN
      then ((rankT0 R).getD r []).map (fun _ => RVal.fin 1)
      else (rankT0 R).getD r [] := by
  unfold rankTransform
  have hlen : r < (rankT0 R).length := by
    unfold rankT0; simpa using hr
  rw [getD_map_list _ _ _ _ [] hlen]

/-- Last entry of a function table over `range n`. -/
theorem getLastD_map_range {α : Type} (f : ℕ → α) (n : ℕ) (hn : 1 ≤ n) (d : α) :
    ((List.range n).map f).getLastD d = f (n - 1) := by
  obtain ⟨m, rfl⟩ : ∃ m, n = m + 1 := ⟨n - 1, by omega⟩
  rw [List.range_succ, List.map_append, List.map_cons, List.map_nil,
    List.getLastD_concat]
  simp

/-- `finVals` undoes the `fin` embedding. -/
theorem finVals_map_fin (qs : List ℚ) : finVals (qs.map .fin) = qs := by
  induction qs with
  | nil => rfl
  | cons q t ih => simpa [finVals, List.filterMap_cons] using ih

/-- A list of finite values has as many rationals as entries. -/
theorem finVals_length_of_all_fin {col : List RVal}
    (h : ∀ v ∈ col, v.isFin = true) : (finVals col).length = col.length := by
  conv_rhs => rw [all_fin_eq_map h]
  rw [List.length_map]

/-- On a column with no infinities, `keptSorted` is the ascending sort
of the rationals of the non-NaN entries: in particular only NaN entries
are dropped. -/
theorem keptSorted_no_inf (col : List RVal)
    (h : ∀ v ∈ col, v ≠ RVal.pinf ∧ v ≠ RVal.ninf) :
    ∃ qs : List ℚ, keptSorted col = qs.map .fin ∧ qs.Sorted (· ≤ ·)
      ∧ ∀ q : ℚ, RVal.fin q ∈ col → q ∈ qs := by
  have hfin0 : ∀ v ∈ col.filter (fun v => RVal.eqb v v), v.isFin = true := by
    intro v hv
    have hm := List.mem_of_mem_filter hv
    have hp := List.of_mem_filter hv
    rcases h v hm with ⟨hp1, hp2⟩
    cases v with
    | fin q => rfl
    | pinf => exact absurd rfl hp1
    | ninf => exact absurd rfl hp2
    | nan => simp [RVal.eqb] at hp
  refine ⟨List.insertionSort (· ≤ ·) (finVals (col.filter (fun v => RVal.eqb v v))),
    ?_, List.sorted_insertionSort _ _, ?_⟩
  · unfold keptSorted
    rw [← npSort_map_fin, ← all_fin_eq_map hfin0]
  · intro q hq
    have hmem : RVal.fin q ∈ col.filter (fun v => RVal.eqb v v) := by
      refine List.mem_filter.mpr ⟨hq, ?_⟩
      simp [RVal.eqb]
    rw [all_fin_eq_map hfin0] at hmem
    have : q ∈ finVals (col.filter (fun v => RVal.eqb v v)) := by
      rcases List.mem_map.mp hmem with ⟨q', hq', he⟩
      cases he
      exact hq'
    exact ((List.perm_insertionSort _ _).mem_iff).mpr this

/-- On an all-finite column nothing is dropped: `keptSorted` is the
sorted rational column. -/
theorem keptSorted_all_fin (col : List RVal) (h : ∀ v ∈ col, v.isFin = true) :
    keptSorted col = (List.insertionSort (· ≤ ·) (finVals col)).map .fin := by
  unfold keptSorted
  have hfilter : col.filter (fun v => RVal.eqb v v) = col := by
    apply List.filter_eq_self.mpr
    intro v hv
    rw [RVal.eqb_self]
    have := h v hv
    cases v with
    | fin q => rfl
    | pinf => exact absurd this (by simp [RVal.isFin])
    | ninf => exact absurd this (by simp [RVal.isFin])
    | nan => exact absurd this (by simp [RVal.isFin])
  rw [hfilter, ← npSort_map_fin, ← all_fin_eq_map h]

/-- In-range entries of an all-finite rectangular matrix are `fin`. -/
theorem entry_isFin (R : List (List RVal)) (r i : ℕ)
    (hrect : ∀ row ∈ R, row.length = shape1 R)
    (hfin : ∀ row ∈ R, ∀ v ∈ row, v.isFin = true)
    (hr : r < R.length) (hi : i < shape1 R) :
    ∃ q : ℚ, (R.getD r []).getD i RVal.nan = RVal.fin q := by
  have hrow : R.getD r [] ∈ R := by
    rw [List.getD_eq_getElem _ _ hr]
    exact List.getElem_mem _
  have hlen : i < (R.getD r []).length := by
    rw [hrect _ hrow]; exact hi
  have hv : (R.getD r []).getD i RVal.nan ∈ R.getD r [] := by
    rw [List.getD_eq_getElem _ _ hlen]
    exact List.getElem_mem _
  have hfv := hfin _ hrow _ hv
  cases hvv : (R.getD r []).getD i RVal.nan with
  | fin q => exact ⟨q, rfl⟩
  | pinf => rw [hvv] at hfv; exact absurd hfv (by simp [RVal.isFin])
  | ninf => rw [hvv] at hfv; exact absurd hfv (by simp [RVal.isFin])
  | nan => rw [hvv] at hfv; exact absurd hfv (by simp [RVal.isFin])

/-- Columns of an all-finite rectangular matrix are all-finite. -/
theorem column_all_fin (R : List (List RVal)) (i : ℕ)
    (hrect : ∀ row ∈ R, row.length = shape1 R)
    (hfin : ∀ row ∈ R, ∀ v ∈ row, v.isFin = true)
    (hi : i < shape1 R) :
    ∀ v ∈ column R i, v.isFin = true := by
  intro v hv
  rcases List.mem_map.mp hv with ⟨row, hrow, rfl⟩
  have hlen : i < row.length := by rw [hrect _ hrow]; exact hi
  have : row.getD i RVal.nan ∈ row := by
    rw [List.getD_eq_getElem _ _ hlen]
    exact List.getElem_mem _
  exact hfin _ hrow _ this

/-- Entry formula for the interpolation pass. -/
theorem rankT0_entry (R : List (List RVal)) (r i : ℕ)
    (hr : r < R.length) (hi : i < shape1 R) :
    ((rankT0 R).getD r []).getD i RVal.nan =
      interp ((R.getD r []).getD i RVal.nan) (keptSorted (column R i))
        (linspace (keptSorted (column R i)).length) := by
  rw [rankT0_getD R r hr, getD_map_range _ _ _ _ hi]

/-- On an all-finite rectangular matrix the NaN-row forcing never
fires: `rankTransform` agrees with the interpolation pass rowwise. -/
theorem rankTransform_eq_rankT0_of_fin (R : List (List RVal))
    (hrect : ∀ row ∈ R, row.length = shape1 R)
    (hfin : ∀ row ∈ R, ∀ v ∈ row, v.isFin = true)
    (hnc : 1 ≤ shape1 R) (r : ℕ) (hr : r < R.length) :
    (rankTransform R).getD r [] = (rankT0 R).getD r [] := by
  rw [rankTransform_getD R r hr]
  have hi : shape1 R - 1 < shape1 R := by omega
  obtain ⟨q, hq⟩ := entry_isFin R r (shape1 R - 1) hrect hfin hr hi
  have hcol := column_all_fin R (shape1 R - 1) hrect hfin hi
  have hnoinf : ∀ v ∈ column R (shape1 R - 1), v ≠ RVal.pinf ∧ v ≠ RVal.ninf := by
    intro v hv
    have := hcol v hv
    cases v with
    | fin _ => exact ⟨by simp, by simp⟩
    | pinf => exact absurd this (by simp [RVal.isFin])
    | ninf => exact absurd this (by simp [RVal.isFin])
    | nan => exact absurd this (by simp [RVal.isFin])
  obtain ⟨qs, hkept, hsort, hmem⟩ := keptSorted_no_inf _ hnoinf
  have hqmem : q ∈ qs := by
    apply hmem
    rw [← hq]
    exact getD_mem_column R (shape1 R - 1) r hr
  have hlast : (((rankT0 R).getD r []).getLastD RVal.nan)
      = interp ((R.getD r []).getD (shape1 R - 1) RVal.nan)
          (keptSorted (column R (shape1 R - 1)))
          (linspace (keptSorted (column R (shape1 R - 1))).length) := by
    rw [rankT0_getD R r hr, getLastD_map_range _ _ hnc]
  obtain ⟨c, hc⟩ : ∃ c : ℚ,
      interp ((R.getD r []).getD (shape1 R - 1) RVal.nan)
        (keptSorted (column R (shape1 R - 1)))
        (linspace (keptSorted (column R (shape1 R - 1))).length) = RVal.fin c := by
    rw [hq, hkept, List.length_map]
    exact interp_fin q qs (linspace qs.length)
      (List.ne_nil_of_mem hqmem) hsort (by rw [linspace_length])
  rw [if_neg]
  rw [hlast, hc]
  simp [RVal.isNaN]

/-- C8 counterexample: a column holding the single finite value 5 maps
it (both the smallest and the largest value of the column) to 0.0, not
1.0: `np.linspace(0., 1., 1)` is `[0.]`. -/
theorem rankTransform_singleton_counterexample :
    rankTransform [[RVal.fin 5]] = [[RVal.fin 0]]
    ∧ RVal.fin 0 ≠ RVal.fin 1 := by
  constructor
  · norm_num [rankTransform, rankT0, keptSorted, npSort, column, shape1,
      interp, interpGo, linspace, RVal.eqb, RVal.ltb, RVal.leb, RVal.isNaN,
      List.insertionSort, List.orderedInsert, List.filter, List.range,
      List.range.loop, npLe]
  · simp

/-- C8 (amended): on an all-finite rectangular matrix whose column `j`
holds pairwise-distinct values, `rankTransform` maps column `j` into
`[0,1]` order-preservingly; the smallest value goes to exactly 0.0, and
the largest to exactly 1.0 whenever the column has `n ≥ 2` entries (for
`n = 1` the single value goes to 0.0). -/
theorem rankTransform_distinct_column (R : List (List RVal)) (j : ℕ)
    (hrect : ∀ row ∈ R, row.length = shape1 R)
    (hfin : ∀ row ∈ R, ∀ v ∈ row, v.isFin = true)
    (hj : j < shape1 R)
    (hnd : (column R j).Nodup) :
    (∀ r, r < R.length → ∃ c : ℚ,
        ((rankTransform R).getD r []).getD j RVal.nan = RVal.fin c
        ∧ 0 ≤ c ∧ c ≤ 1)
    ∧ (∀ r s, r < R.length → s < R.length →
        RVal.ltb ((R.getD r []).getD j RVal.nan) ((R.getD s []).getD j RVal.nan) = true →
        RVal.ltb (((rankTransform R).getD r []).getD j RVal.nan)
          (((rankTransform R).getD s []).getD j RVal.nan) = true)
    ∧ (∀ r, r < R.length →
        (∀ s, s < R.length →
          RVal.leb ((R.getD r []).getD j RVal.nan) ((R.getD s []).getD j RVal.nan) = true) →
        ((rankTransform R).getD r []).getD j RVal.nan = RVal.fin 0)
    ∧ (∀ r, r < R.length → 2 ≤ R.length →
        (∀ s, s < R.length →
          RVal.leb ((R.getD s []).getD j RVal.nan) ((R.getD r []).getD j RVal.nan) = true) →
        ((rankTransform R).getD r []).getD j RVal.nan = RVal.fin 1) := by
  have hnc : 1 ≤ shape1 R := by omega
  set col := column R j with hcol
  have hcolfin : ∀ v ∈ col, v.isFin = true := column_all_fin R j hrect hfin hj
  have hcoleq : col = (finVals col).map .fin := all_fin_eq_map hcolfin
  set S := List.insertionSort (· ≤ ·) (finVals col) with hS
  have hkept : keptSorted col = S.map .fin := keptSorted_all_fin col hcolfin
  have hperm : List.Perm S (finVals col) := List.perm_insertionSort _ _
  have hfvnodup : (finVals col).Nodup := by
    have := hnd
    rw [hcoleq] at this
    exact this.of_map _
  have hSnodup : S.Nodup := hperm.nodup_iff.mpr hfvnodup
  have hSsorted : S.Sorted (· < ·) :=
    List.Sorted.lt_of_le (List.sorted_insertionSort _ _) hSnodup
  have hSlen : S.length = R.length := by
    rw [hperm.length_eq, finVals_length_of_all_fin hcolfin, hcol]
    simp [column]
  -- for each row, locate its value in the sorted column and compute
  -- the transformed entry
  have key : ∀ r, r < R.length → ∃ (q : ℚ) (k : ℕ), k < S.length
      ∧ (R.getD r []).getD j RVal.nan = RVal.fin q
      ∧ S.getD k 0 = q
      ∧ ((rankTransform R).getD r []).getD j RVal.nan
          = RVal.fin ((linspace S.length).getD k 0) := by
    intro r hr
    obtain ⟨q, hq⟩ := entry_isFin R r j hrect hfin hr hj
    have hqcol : RVal.fin q ∈ col := by
      rw [← hq]
      exact getD_mem_column R j r hr
    have hqS : q ∈ S := by
      apply hperm.mem_iff.mpr
      rw [hcoleq] at hqcol
      rcases List.mem_map.mp hqcol with ⟨q', hq', he⟩
      cases he
      exact hq'
    obtain ⟨k, hk, hSk⟩ := List.mem_iff_getElem.mp hqS
    refine ⟨q, k, hk, hq, ?_, ?_⟩
    · rw [List.getD_eq_getElem _ _ hk, hSk]
    · rw [rankTransform_eq_rankT0_of_fin R hrect hfin hnc r hr,
        rankT0_entry R r j hr hj, hq, hkept, List.length_map]
      have hqk : q = S.getD k 0 := by
        rw [List.getD_eq_getElem _ _ hk, hSk]
      rw [hqk]
      exact interp_at_sample S (linspace S.length) k hSsorted
        (by rw [linspace_length]) hk
  refine ⟨?_, ?_, ?_, ?_⟩
  · intro r hr
    obtain ⟨q, k, hk, _, _, hout⟩ := key r hr
    exact ⟨_, hout, linspace_getD_bounds S.length k hk⟩
  · intro r s hr hs hlt
    obtain ⟨qr, kr, hkr, hqr, hSkr, houtr⟩ := key r hr
    obtain ⟨qs', ks, hks, hqs, hSks, houts⟩ := key s hs
    rw [hqr, hqs] at hlt
    have hqlt : qr < qs' := RVal.ltb_fin.mp hlt
    have hklt : kr < ks := by
      by_contra hc
      push_neg at hc
      rcases Nat.eq_or_lt_of_le hc with he | hlt2
      · rw [he] at hSks
        have heq : qr = qs' := hSkr.symm.trans hSks
        rw [heq] at hqlt
        exact lt_irrefl _ hqlt
      · have := List.pairwise_iff_getElem.mp hSsorted ks kr hks hkr hlt2
        rw [List.getD_eq_getElem _ _ hkr] at hSkr
        rw [List.getD_eq_getElem _ _ hks] at hSks
        rw [hSkr, hSks] at this
        exact absurd (hqlt.trans this) (lt_irrefl _)
    rw [houtr, houts]
    exact RVal.ltb_fin.mpr (linspace_strictMono S.length kr ks hklt hks)
  · intro r hr hmin
    obtain ⟨qr, kr, hkr, hqr, hSkr, hout⟩ := key r hr
    have hk0 : kr = 0 := by
      by_contra hc
      have h0 : 0 < S.length := by omega
      -- the head of S is some row's value, which r's value must not exceed
      have hheadS : S.getD 0 0 ∈ S := by
        rw [List.getD_eq_getElem _ _ h0]
        exact List.getElem_mem _
      have hheadcol : RVal.fin (S.getD 0 0) ∈ col := by
        rw [hcoleq]
        exact List.mem_map_of_mem _ (hperm.mem_iff.mp hheadS)
      obtain ⟨s, hs, hcols⟩ := List.mem_iff_getElem.mp hheadcol
      have hs' : s < R.length := by
        have : col.length = R.length := by rw [hcol]; simp [column]
        omega
      have hvals : (R.getD s []).getD j RVal.nan = RVal.fin (S.getD 0 0) := by
        rw [← column_getD R j s hs', ← hcol, List.getD_eq_getElem _ _ hs, hcols]
      have hle1 := hmin s hs'
      rw [hqr, hvals] at hle1
      have hle1' : qr ≤ S.getD 0 0 := RVal.leb_fin.mp hle1
      have hlt0 : 0 < kr := Nat.pos_of_ne_zero hc
      have := List.pairwise_iff_getElem.mp hSsorted 0 kr h0 hkr hlt0
      rw [← List.getD_eq_getElem S 0 h0, ← List.getD_eq_getElem S 0 hkr, hSkr] at this
      exact absurd (lt_of_le_of_lt hle1' this) (lt_irrefl _)
    rw [hout, hk0, linspace_first S.length (by omega)]
  · intro r hr h2 hmax
    obtain ⟨qr, kr, hkr, hqr, hSkr, hout⟩ := key r hr
    have hklast : kr = S.length - 1 := by
      by_contra hc
      have hlast : S.length - 1 < S.length := by omega
      have hlastS : S.getD (S.length - 1) 0 ∈ S := by
        rw [List.getD_eq_getElem _ _ hlast]
        exact List.getElem_mem _
      have hlastcol : RVal.fin (S.getD (S.length - 1) 0) ∈ col := by
        rw [hcoleq]
        exact List.mem_map_of_mem _ (hperm.mem_iff.mp hlastS)
      obtain ⟨s, hs, hcols⟩ := List.mem_iff_getElem.mp hlastcol
      have hs' : s < R.length := by
        have : col.length = R.length := by rw [hcol]; simp [column]
        omega
      have hvals : (R.getD s []).getD j RVal.nan
          = RVal.fin (S.getD (S.length - 1) 0) := by
        rw [← column_getD R j s hs', ← hcol, List.getD_eq_getElem _ _ hs, hcols]
      have hle1 := hmax s hs'
      rw [hqr, hvals] at hle1
      have hle1' : S.getD (S.length - 1) 0 ≤ qr := RVal.leb_fin.mp hle1
      have hltlast : kr < S.length - 1 := by omega
      have := List.pairwise_iff_getElem.mp hSsorted kr (S.length - 1) hkr hlast hltlast
      rw [← List.getD_eq_getElem S 0 hkr, ← List.getD_eq_getElem S 0 hlast, hSkr] at this
      exact absurd (lt_of_le_of_lt hle1' this) (lt_irrefl _)
    rw [hout, hklast, linspace_last S.length (by omega)]

/-- Example matrix for the rank-transform witnesses: one column of
three distinct finite values. -/
def rankMatExample : List (List RVal) := [[.fin 3], [.fin 1], [.fin 2]]

/-- C8 witness: the distinct-column theorem applies to a concrete
3 × 1 matrix. -/
theorem rankTransform_distinct_column_witness :
    (∀ row ∈ rankMatExample, row.length = shape1 rankMatExample)
    ∧ (∀ row ∈ rankMatExample, ∀ v ∈ row, v.isFin = true)
    ∧ 0 < shape1 rankMatExample
    ∧ (column rankMatExample 0).Nodup
    ∧ ((∀ r, r < rankMatExample.length → ∃ c : ℚ,
          ((rankTransform rankMatExample).getD r []).getD 0 RVal.nan = RVal.fin c
          ∧ 0 ≤ c ∧ c ≤ 1)
      ∧ (∀ r s, r < rankMatExample.length → s < rankMatExample.length →
          RVal.ltb ((rankMatExample.getD r []).getD 0 RVal.nan)
            ((rankMatExample.getD s []).getD 0 RVal.nan) = true →
          RVal.ltb (((rankTransform rankMatExample).getD r []).getD 0 RVal.nan)
            (((rankTransform rankMatExample).getD s []).getD 0 RVal.nan) = true)
      ∧ (∀ r, r < rankMatExample.length →
          (∀ s, s < rankMatExample.length →
            RVal.leb ((rankMatExample.getD r []).getD 0 RVal.nan)
              ((rankMatExample.getD s []).getD 0 RVal.nan) = true) →
          ((rankTransform rankMatExample).getD r []).getD 0 RVal.nan = RVal.fin 0)
      ∧ (∀ r, r < rankMatExample.length → 2 ≤ rankMatExample.length →
          (∀ s, s < rankMatExample.length →
            RVal.leb ((rankMatExample.getD s []).getD 0 RVal.nan)
              ((rankMatExample.getD r []).getD 0 RVal.nan) = true) →
          ((rankTransform rankMatExample).getD r []).getD 0 RVal.nan = RVal.fin 1)) :=
  ⟨by decide, by decide, by decide, by decide,
    rankTransform_distinct_column rankMatExample 0
      (by decide) (by decide) (by decide) (by decide)⟩

/-- A value testing true under `isNaN` is `nan`. -/
theorem RVal.eq_nan_of_isNaN {v : RVal} (h : v.isNaN = true) : v = RVal.nan := by
  cases v <;> first | rfl | simp [RVal.isNaN] at h

/-- Columns of a matrix without infinities contain no infinities
(out-of-range reads give the NaN default). -/
theorem column_no_inf (R : List (List RVal)) (i : ℕ)
    (hnoinf : ∀ row ∈ R, ∀ v ∈ row, v ≠ RVal.pinf ∧ v ≠ RVal.ninf) :
    ∀ v ∈ column R i, v ≠ RVal.pinf ∧ v ≠ RVal.ninf := by
  intro v hv
  rcases List.mem_map.mp hv with ⟨row, hrow, rfl⟩
  rcases Nat.lt_or_ge i row.length with hlt | hge
  · have : row.getD i RVal.nan ∈ row := by
      rw [List.getD_eq_getElem _ _ hlt]
      exact List.getElem_mem _
    exact hnoinf _ hrow _ this
  · rw [List.getD_eq_getElem?_getD, List.getElem?_eq_none hge]
    exact ⟨by simp, by simp⟩

set_option maxHeartbeats 2000000 in
/-- C9 counterexample: a row carrying NaN in a non-last column is not
forced to 1.0 — the NaN survives into the output while the rest of the
row is rank-transformed. -/
theorem rankTransform_nan_row_counterexample :
    rankTransform [[RVal.nan, RVal.fin 0], [RVal.fin 1, RVal.fin 1],
        [RVal.fin 2, RVal.fin 2]]
      = [[RVal.nan, RVal.fin 0], [RVal.fin 0, RVal.fin (1 / 2)],
        [RVal.fin 1, RVal.fin 1]]
    ∧ RVal.nan ≠ RVal.fin 1 := by
  refine ⟨?_, by decide⟩
  norm_num [rankTransform, rankT0, keptSorted, npSort, column, shape1,
    interp, interpGo, linspace, RVal.eqb, RVal.ltb, RVal.leb, RVal.isNaN,
    RVal.add, RVal.sub, RVal.neg, RVal.mul, RVal.div,
    List.insertionSort, List.orderedInsert, List.filter, List.range,
    List.range.loop, npLe]

/-- C9 (amended): the `r == r` mask excludes exactly the NaN entries
of each column (±inf entries participate in the rank computation), and
a row is overwritten with 1.0 exactly when its *last*-column output is
NaN: a row whose last-column entry is finite keeps interpolated values,
with NaN surviving at any NaN input positions in other columns. -/
theorem rankTransform_forced_row (R : List (List RVal)) (r2 : ℕ)
    (hr2 : r2 < R.length) (hnc : 1 ≤ shape1 R)
    (hlast2 : ((R.getD r2 []).getD (shape1 R - 1) RVal.nan).isNaN = true) :
    (rankTransform R).getD r2 [] = List.replicate (shape1 R) (RVal.fin 1) := by
  rw [rankTransform_getD R r2 hr2]
  have hlastval : ((rankT0 R).getD r2 []).getLastD RVal.nan = RVal.nan := by
    rw [rankT0_getD R r2 hr2, getLastD_map_range _ _ hnc,
      RVal.eq_nan_of_isNaN hlast2, interp_nan]
  rw [if_pos (by rw [hlastval]; rfl)]
  have hlen : ((rankT0 R).getD r2 []).length = shape1 R := by
    rw [rankT0_getD R r2 hr2, List.length_map, List.length_range]
  rw [List.map_const', hlen]

theorem rankTransform_unforced_row (R : List (List RVal)) (r : ℕ) (q : ℚ)
    (hnoinf : ∀ row ∈ R, ∀ v ∈ row, v ≠ RVal.pinf ∧ v ≠ RVal.ninf)
    (hr : r < R.length) (hnc : 1 ≤ shape1 R)
    (hlast : (R.getD r []).getD (shape1 R - 1) RVal.nan = RVal.fin q) :
    (rankTransform R).getD r [] = (rankT0 R).getD r []
    ∧ ∃ c : ℚ, ((rankT0 R).getD r []).getLastD RVal.nan = RVal.fin c := by
  obtain ⟨qs, hkept, hsort, hmem⟩ :=
    keptSorted_no_inf _ (column_no_inf R (shape1 R - 1) hnoinf)
  have hqmem : q ∈ qs := by
    apply hmem
    rw [← hlast]
    exact getD_mem_column R (shape1 R - 1) r hr
  obtain ⟨c, hc⟩ : ∃ c : ℚ,
      interp ((R.getD r []).getD (shape1 R - 1) RVal.nan)
        (keptSorted (column R (shape1 R - 1)))
        (linspace (keptSorted (column R (shape1 R - 1))).length) = RVal.fin c := by
    rw [hlast, hkept, List.length_map]
    exact interp_fin q qs (linspace qs.length)
      (List.ne_nil_of_mem hqmem) hsort (by rw [linspace_length])
  have hlastval : ((rankT0 R).getD r []).getLastD RVal.nan = RVal.fin c := by
    rw [rankT0_getD R r hr, getLastD_map_range _ _ hnc, hc]
  refine ⟨?_, c, hlastval⟩
  rw [rankTransform_getD R r hr]
  rw [if_neg (by rw [hlastval]; simp [RVal.isNaN])]

theorem rankTransform_nan_rule (col : List RVal) (R : List (List RVal))
    (r r2 i : ℕ) (q : ℚ)
    (hnoinf : ∀ row ∈ R, ∀ v ∈ row, v ≠ RVal.pinf ∧ v ≠ RVal.ninf)
    (hr : r < R.length) (hr2 : r2 < R.length) (hnc : 1 ≤ shape1 R)
    (hlast : (R.getD r []).getD (shape1 R - 1) RVal.nan = RVal.fin q)
    (hi : i < shape1 R)
    (hnan : ((R.getD r []).getD i RVal.nan).isNaN = true)
    (hlast2 : ((R.getD r2 []).getD (shape1 R - 1) RVal.nan).isNaN = true) :
    col.filter (fun v => RVal.eqb v v) = col.filter (fun v => !v.isNaN)
    ∧ (rankTransform R).getD r2 [] = List.replicate (shape1 R) (RVal.fin 1)
    ∧ ((rankTransform R).getD r []).getD i RVal.nan = RVal.nan := by
  refine ⟨List.filter_congr (fun v _ => by rw [RVal.eqb_self]),
    rankTransform_forced_row R r2 hr2 hnc hlast2, ?_⟩
  rw [(rankTransform_unforced_row R r q hnoinf hr hnc hlast).1,
    rankT0_entry R r i hr hi, RVal.eq_nan_of_isNaN hnan, interp_nan]

/-- C9 witness: on a concrete 4 × 2 matrix the mask keeps a `+inf`
entry, the NaN-last row is forced to 1.0, and the NaN in a non-last
column of a finite-last row survives. -/
theorem rankTransform_nan_rule_witness :
    ([RVal.pinf, RVal.fin 1, RVal.nan].filter (fun v => RVal.eqb v v)
        = [RVal.pinf, RVal.fin 1, RVal.nan].filter (fun v => !v.isNaN))
    ∧ (rankTransform [[RVal.nan, RVal.fin 0], [RVal.fin 1, RVal.fin 1],
          [RVal.fin 2, RVal.fin 2], [RVal.fin 5, RVal.nan]]).getD 3 []
        = List.replicate (shape1 [[RVal.nan, RVal.fin 0], [RVal.fin 1, RVal.fin 1],
            [RVal.fin 2, RVal.fin 2], [RVal.fin 5, RVal.nan]]) (RVal.fin 1)
    ∧ ((rankTransform [[RVal.nan, RVal.fin 0], [RVal.fin 1, RVal.fin 1],
          [RVal.fin 2, RVal.fin 2], [RVal.fin 5, RVal.nan]]).getD 0 []).getD 0 RVal.nan
        = RVal.nan :=
  rankTransform_nan_rule [RVal.pinf, RVal.fin 1, RVal.nan]
    [[RVal.nan, RVal.fin 0], [RVal.fin 1, RVal.fin 1],
      [RVal.fin 2, RVal.fin 2], [RVal.fin 5, RVal.nan]]
    0 3 0 0 (by decide) (by decide) (by decide) (by decide) (by decide)
    (by decide) (by decide) (by decide)

/-! ## Lemmas for the `DMap.build` color pipeline -/

/-- `getD` into a replicated list with the replicated value as default. -/
theorem getD_replicate_self {α : Type} (n i : ℕ) (x : α) :
    (List.replicate n x).getD i x = x := by
  rcases Nat.lt_or_ge i n with h | h
  · rw [List.getD_eq_getElem _ _ (by simpa using h), List.getElem_replicate]
  · rw [List.getD_eq_getElem?_getD, List.getElem?_eq_none (by simpa using h)]
    rfl

/-- In-range `getD` into a replicated list. -/
theorem getD_replicate_lt {α : Type} (n i : ℕ) (x d : α) (h : i < n) :
    (List.replicate n x).getD i d = x := by
  rw [List.getD_eq_getElem _ _ (by simpa using h), List.getElem_replicate]

/-- Setting the head of a nonempty replicated list. -/
theorem set_zero_replicate {α : Type} (n : ℕ) (hn : 1 ≤ n) (x y : α) :
    (List.replicate n x).set 0 y = y :: List.replicate (n - 1) x := by
  obtain ⟨m, rfl⟩ : ∃ m, n = m + 1 := ⟨n - 1, by omega⟩
  rw [List.replicate_succ]
  rfl

/-- `getD 0` after setting index 0 of a nonempty list. -/
theorem getD_set_zero {α : Type} (l : List α) (a d : α) (h : l ≠ []) :
    (l.set 0 a).getD 0 d = a := by
  cases l with
  | nil => exact absurd rfl h
  | cons x t => rfl

/-- The default of `getLastD` is irrelevant on nonempty lists. -/
theorem getLastD_default_irrel {α : Type} (l : List α) (d d' : α) (h : l ≠ []) :
    l.getLastD d = l.getLastD d' := by
  rw [List.getLastD_eq_getLast?, List.getLastD_eq_getLast?]
  rcases List.getLast?_isSome.mpr h |> Option.isSome_iff_exists.mp with ⟨x, hx⟩
  rw [hx]
  rfl

/-- Last entry of a nonempty replicated list. -/
theorem getLastD_replicate {α : Type} (m : ℕ) (x d : α) :
    (List.replicate (m + 1) x).getLastD d = x := by
  induction m generalizing d with
  | zero => rfl
  | succ k ih =>
      rw [List.replicate_succ, List.getLastD_cons]
      exact ih x

/-- Setting the head does not change the last entry's NaN status when
the last entry was finite. -/
theorem getLastD_set_zero_not_nan (l : List RVal) (c : ℚ) (hne : l ≠ [])
    (h : l.getLastD RVal.nan = RVal.fin c) :
    ((l.set 0 (RVal.fin (1 / 2))).getLastD RVal.nan).isNaN = false := by
  cases l with
  | nil => exact absurd rfl hne
  | cons x t =>
    cases t with
    | nil => rfl
    | cons y t' =>
      rw [List.set_cons_zero, List.getLastD_cons,
        getLastD_default_irrel (y :: t') (RVal.fin (1 / 2)) x (by simp)]
      rw [List.getLastD_cons] at h
      rw [h]
      rfl

/-- The color-coordinate pipeline of `DMap.build` (rank transform, then
first column forced to 0.5, then the — never firing — NaN catch): an
all-NaN sentinel row comes out as `0.5` followed by ones, and a finite
row keeps `0.5` in its first column. -/
theorem colorPipeline (ne : ℕ) (R : List (List RVal)) (r rv : ℕ)
    (hne : 1 ≤ ne)
    (hlen : ∀ row ∈ R, row.length = ne)
    (hnoinf : ∀ row ∈ R, ∀ v ∈ row, v ≠ RVal.pinf ∧ v ≠ RVal.ninf)
    (hr : r < R.length) (hrow_r : R.getD r [] = List.replicate ne RVal.nan)
    (hrv : rv < R.length) (hrow_v : ∀ v ∈ R.getD rv [], v.isFin = true) :
    (((rankTransform R).map (fun row => row.set 0 (RVal.fin (1 / 2)))).map
        (fun row => if (row.getLastD RVal.nan).isNaN then row.map (fun _ => RVal.fin 1)
          else row)).getD r []
      = RVal.fin (1 / 2) :: List.replicate (ne - 1) (RVal.fin 1)
    ∧ ((((rankTransform R).map (fun row => row.set 0 (RVal.fin (1 / 2)))).map
        (fun row => if (row.getLastD RVal.nan).isNaN then row.map (fun _ => RVal.fin 1)
          else row)).getD rv []).getD 0 RVal.nan
      = RVal.fin (1 / 2) := by
  have hshape : shape1 R = ne := by
    cases R with
    | nil => exact absurd hr (by simp)
    | cons h t => exact hlen h (List.mem_cons_self _ _)
  have hnc : 1 ≤ shape1 R := by rw [hshape]; exact hne
  have hlenT : (rankTransform R).length = R.length := by
    unfold rankTransform rankT0
    simp
  have hlenC1 : ((rankTransform R).map
      (fun row => row.set 0 (RVal.fin (1 / 2)))).length = R.length := by
    rw [List.length_map, hlenT]
  constructor
  · -- sentinel row r
    have hlast2 : ((R.getD r []).getD (shape1 R - 1) RVal.nan).isNaN = true := by
      rw [hrow_r, hshape, getD_replicate_self]
      rfl
    have hforced := rankTransform_forced_row R r hr hnc hlast2
    rw [getD_map_list _ _ _ _ [] (by rw [hlenC1]; exact hr),
      getD_map_list _ _ _ _ [] (by rw [hlenT]; exact hr),
      hforced, hshape, set_zero_replicate ne hne]
    rw [if_neg]
    obtain ⟨m, hm⟩ : ∃ m, ne - 1 = m := ⟨ne - 1, rfl⟩
    rw [hm]
    cases m with
    | zero => simp [RVal.isNaN]
    | succ k =>
      rw [List.getLastD_cons, getLastD_replicate]
      simp [RVal.isNaN]
  · -- classified row rv
    obtain ⟨q, hq⟩ : ∃ q : ℚ, (R.getD rv []).getD (shape1 R - 1) RVal.nan
        = RVal.fin q := by
      have hrow : R.getD rv [] ∈ R := by
        rw [List.getD_eq_getElem _ _ hrv]
        exact List.getElem_mem _
      have hl : shape1 R - 1 < (R.getD rv []).length := by
        rw [hlen _ hrow, ← hshape]
        omega
      have hv : (R.getD rv []).getD (shape1 R - 1) RVal.nan ∈ R.getD rv [] := by
        rw [List.getD_eq_getElem _ _ hl]
        exact List.getElem_mem _
      have := hrow_v _ hv
      cases hvv : (R.getD rv []).getD (shape1 R - 1) RVal.nan with
      | fin q => exact ⟨q, rfl⟩
      | pinf => rw [hvv] at this; exact absurd this (by simp [RVal.isFin])
      | ninf => rw [hvv] at this; exact absurd this (by simp [RVal.isFin])
      | nan => rw [hvv] at this; exact absurd this (by simp [RVal.isFin])
    obtain ⟨hunf, c, hlastc⟩ :=
      rankTransform_unforced_row R rv q hnoinf hrv hnc hq
    have hT0len : ((rankT0 R).getD rv []).length = shape1 R := by
      rw [rankT0_getD R rv hrv, List.length_map, List.length_range]
    have hT0ne : (rankT0 R).getD rv [] ≠ [] := by
      intro hc
      rw [hc] at hT0len
      simp at hT0len
      omega
    rw [getD_map_list _ _ _ _ [] (by rw [hlenC1]; exact hrv),
      getD_map_list _ _ _ _ [] (by rw [hlenT]; exact hrv),
      hunf]
    rw [if_neg (by rw [getLastD_set_zero_not_nan _ c hT0ne hlastc]; simp)]
    exact getD_set_zero _ _ _ hT0ne

/-- `selRows` emits one row per index. -/
theorem selRows_length {α : Type} (dflt : List α) (M : List (List α))
    (idxs : List ℕ) : (selRows dflt M idxs).length = idxs.length :=
  List.length_map _ _

/-- `selCols` keeps the number of rows. -/
theorem selCols_length (dflt : ℚ) (M : List (List ℚ)) (idxs : List ℕ) :
    (selCols dflt M idxs).length = M.length :=
  List.length_map _ _

/-- `toRMat` keeps the number of rows. -/
theorem toRMat_length (M : List (List ℚ)) : (toRMat M).length = M.length :=
  List.length_map _ _

/-- Rows of `toRMat` hold only finite values. -/
theorem toRMat_row_fin (M : List (List ℚ)) :
    ∀ row ∈ toRMat M, ∀ v ∈ row, v.isFin = true := by
  intro row hrow v hv
  rcases List.mem_map.mp hrow with ⟨qrow, _, rfl⟩
  rcases List.mem_map.mp hv with ⟨q, _, rfl⟩
  rfl

/-- Reading rows of `toRMat`. -/
theorem toRMat_getD (M : List (List ℚ)) (k : ℕ) (hk : k < M.length) :
    (toRMat M).getD k [] = (M.getD k []).map RVal.fin := by
  unfold toRMat
  rw [getD_map_list _ _ _ _ [] hk]

set_option maxHeartbeats 2000000 in
/-- C7 counterexample: after `DMap.build` a row excluded by validity
filtering has color coordinates `[0.5, 1]`, not all channels 1: the
first column is overwritten to 0.5 *after* `rankTransform` has already
forced the sentinel row to 1.0, and the build-level NaN catch sees no
NaN left. -/
theorem build_invalid_row_color_counterexample :
    (((DMap.build id (fun _ _ _ => ([], []))
        (fun _ n _ L => L.map (fun _ => List.replicate n (1 : ℚ)))
        ⟨2, some 1, none, none, none, none, none⟩
        [[0, 1], [1, 0], [9, 9]] (some [0, 1]) (some [0, 1])
        (some [0, 1])).1.color_coords.getD []).getD 2 []
      = [RVal.fin (1 / 2), RVal.fin 1])
    ∧ RVal.fin (1 / 2) ≠ RVal.fin 1 := by
  refine ⟨?_, by norm_num⟩
  norm_num [DMap.build, selRows, selCols, nanMat, scatterRows, toRMat,
    npMedian, rankTransform, rankT0, keptSorted, npSort, column, shape1,
    interp, interpGo, linspace, RVal.eqb, RVal.ltb, RVal.leb, RVal.isNaN,
    RVal.add, RVal.sub, RVal.neg, RVal.mul, RVal.div,
    List.insertionSort, List.orderedInsert, List.filter, List.range,
    List.range.loop, npLe, List.replicate_succ, List.set_cons_zero,
    List.getLast?]

/-- C7 (amended): after `DMap.build` with landmarks, every signature
row excluded by validity filtering holds the non-finite NaN sentinel
(never zero) in the backfilled embedding arrays (`evecs_ny`, `coords`);
its color-coordinate row is `0.5` in the first channel and `1` in every
other channel (the first channel is overwritten to 0.5 for all rows
after the corner forcing); and every valid (classified) row likewise
has first color-coordinate channel exactly 0.5. -/
theorem build_backfill_sentinel_colors (phi : ℚ → ℚ)
    (solve : List (List ℚ) → ℕ → ℚ → List ℚ × List (List ℚ))
    (nystromF : List (List ℚ) → ℕ → ℚ → List (List ℚ) → List (List ℚ))
    (st : DMapState) (dists : List (List ℚ)) (lms vc vr : List ℕ)
    (r rv : ℕ)
    (hny : ∀ (D : List (List ℚ)) (n : ℕ) (e : ℚ) (L : List (List ℚ)),
      (nystromF D n e L).length = L.length
      ∧ ∀ row ∈ nystromF D n e L, row.length = n)
    (hne : 1 ≤ st.num_evec)
    (hvr : ∀ a ∈ vr, a < dists.length)
    (hvrnd : vr.Nodup)
    (hr : r < dists.length) (hrinv : r ∉ vr)
    (hrv : rv ∈ vr) :
    (DMap.build phi solve nystromF st dists (some lms) (some vc) (some vr)).2 = none
    ∧ ((DMap.build phi solve nystromF st dists (some lms) (some vc)
          (some vr)).1.evecs_ny.getD []).getD r []
        = List.replicate st.num_evec RVal.nan
    ∧ ((DMap.build phi solve nystromF st dists (some lms) (some vc)
          (some vr)).1.coords.getD []).getD r []
        = List.replicate st.num_evec RVal.nan
    ∧ ((DMap.build phi solve nystromF st dists (some lms) (some vc)
          (some vr)).1.color_coords.getD []).getD r []
        = RVal.fin (1 / 2) :: List.replicate (st.num_evec - 1) (RVal.fin 1)
    ∧ (((DMap.build phi solve nystromF st dists (some lms) (some vc)
          (some vr)).1.color_coords.getD []).getD rv []).getD 0 RVal.nan
        = RVal.fin (1 / 2) := by
  set aD := dists.map (fun row => row.map phi) with haD
  set eps := (match st.epsilon with
    | none => npMedian aD.flatten
    | some e => e) with heps
  set NY := nystromF (selCols 0 (selRows [] aD lms) vc) st.num_evec eps
    (selCols 0 (selRows [] aD vr) vc) with hNY
  set RR := scatterRows (nanMat dists.length st.num_evec) vr (toRMat NY)
    with hRRdef
  have hRR : (DMap.build phi solve nystromF st dists (some lms) (some vc)
      (some vr)).1.evecs_ny = some RR := rfl
  have hco : (DMap.build phi solve nystromF st dists (some lms) (some vc)
      (some vr)).1.coords = some RR := rfl
  have hcc : (DMap.build phi solve nystromF st dists (some lms) (some vc)
      (some vr)).1.color_coords
      = some (((rankTransform RR).map
            (fun row => row.set 0 (RVal.fin (1 / 2)))).map
          (fun row => if (row.getLastD RVal.nan).isNaN
            then row.map (fun _ => RVal.fin 1) else row)) := rfl
  have hNYlen : NY.length = vr.length := by
    rw [hNY, (hny _ _ _ _).1, selCols_length, selRows_length]
  have hRRlen : RR.length = dists.length := by
    rw [hRRdef, scatterRows_length]
    simp [nanMat]
  have hrowr : RR.getD r [] = List.replicate st.num_evec RVal.nan := by
    rw [hRRdef, scatterRows_untouched vr (toRMat NY) _ r hrinv]
    unfold nanMat
    exact getD_replicate_lt _ _ _ _ hr
  refine ⟨rfl, ?_, ?_, ?_, ?_⟩
  · rw [hRR, Option.getD_some]
    exact hrowr
  · rw [hco, Option.getD_some]
    exact hrowr
  · rw [hcc, Option.getD_some]
    refine (colorPipeline st.num_evec RR r rv hne ?_ ?_ ?_ hrowr ?_ ?_).1
    · exact scatterRows_rows_prop _ vr (toRMat NY) _
        (fun row hrow => by
          rw [List.eq_of_mem_replicate hrow, List.length_replicate])
        (fun row hrow => by
          rcases List.mem_map.mp hrow with ⟨qrow, hq, rfl⟩
          rw [List.length_map]
          exact (hny _ _ _ _).2 qrow (hNY ▸ hq))
    · exact scatterRows_rows_prop _ vr (toRMat NY) _
        (fun row hrow v hv => by
          rw [List.eq_of_mem_replicate hrow] at hv
          rw [List.eq_of_mem_replicate hv]
          exact ⟨by simp, by simp⟩)
        (fun row hrow v hv => by
          have := toRMat_row_fin NY row hrow v hv
          cases v with
          | fin q => exact ⟨by simp, by simp⟩
          | pinf => exact absurd this (by simp [RVal.isFin])
          | ninf => exact absurd this (by simp [RVal.isFin])
          | nan => exact absurd this (by simp [RVal.isFin]))
    · rw [hRRlen]; exact hr
    · rw [hRRlen]; exact hvr rv hrv
    · obtain ⟨k, hk, hvk⟩ := List.mem_iff_getElem.mp hrv
      have hgd : vr.getD k 0 = rv := by
        rw [List.getD_eq_getElem _ _ hk, hvk]
      have hrow : RR.getD rv [] = (toRMat NY).getD k [] := by
        rw [hRRdef, ← hgd]
        refine scatterRows_touched vr (toRMat NY) _ k hvrnd hk ?_ ?_
        · rw [toRMat_length, hNYlen]; exact hk
        · rw [hgd]
          simpa [nanMat] using hvr rv hrv
      rw [hrow, toRMat_getD NY k (by rw [hNYlen]; exact hk)]
      intro v hv
      rcases List.mem_map.mp hv with ⟨q, _, rfl⟩
      rfl
  · rw [hcc, Option.getD_some]
    refine (colorPipeline st.num_evec RR r rv hne ?_ ?_ ?_ hrowr ?_ ?_).2
    · exact scatterRows_rows_prop _ vr (toRMat NY) _
        (fun row hrow => by
          rw [List.eq_of_mem_replicate hrow, List.length_replicate])
        (fun row hrow => by
          rcases List.mem_map.mp hrow with ⟨qrow, hq, rfl⟩
          rw [List.length_map]
          exact (hny _ _ _ _).2 qrow (hNY ▸ hq))
    · exact scatterRows_rows_prop _ vr (toRMat NY) _
        (fun row hrow v hv => by
          rw [List.eq_of_mem_replicate hrow] at hv
          rw [List.eq_of_mem_replicate hv]
          exact ⟨by simp, by simp⟩)
        (fun row hrow v hv => by
          have := toRMat_row_fin NY row hrow v hv
          cases v with
          | fin q => exact ⟨by simp, by simp⟩
          | pinf => exact absurd this (by simp [RVal.isFin])
          | ninf => exact absurd this (by simp [RVal.isFin])
          | nan => exact absurd this (by simp [RVal.isFin]))
    · rw [hRRlen]; exact hr
    · rw [hRRlen]; exact hvr rv hrv
    · obtain ⟨k, hk, hvk⟩ := List.mem_iff_getElem.mp hrv
      have hgd : vr.getD k 0 = rv := by
        rw [List.getD_eq_getElem _ _ hk, hvk]
      have hrow : RR.getD rv [] = (toRMat NY).getD k [] := by
        rw [hRRdef, ← hgd]
        refine scatterRows_touched vr (toRMat NY) _ k hvrnd hk ?_ ?_
        · rw [toRMat_length, hNYlen]; exact hk
        · rw [hgd]
          simpa [nanMat] using hvr rv hrv
      rw [hrow, toRMat_getD NY k (by rw [hNYlen]; exact hk)]
      intro v hv
      rcases List.mem_map.mp hv with ⟨q, _, rfl⟩
      rfl

/-- A trivial stand-in for the external eigensolver call sequence. -/
def mockSolve : List (List ℚ) → ℕ → ℚ → List ℚ × List (List ℚ) :=
  fun _ _ _ => ([], [])

/-- A stand-in Nystrom primitive honouring the shape contract: one
`num_evec`-long coordinate row per input row. -/
def mockNystrom : List (List ℚ) → ℕ → ℚ → List (List ℚ) → List (List ℚ) :=
  fun _ n _ L => L.map (fun _ => List.replicate n 1)

/-- C7 witness: the sentinel/color theorem applies to a concrete 3 × 2
distance matrix with valid rows `{0, 1}` and excluded row 2. -/
theorem build_backfill_sentinel_colors_witness :
    (∀ (D : List (List ℚ)) (n : ℕ) (e : ℚ) (L : List (List ℚ)),
      (mockNystrom D n e L).length = L.length
      ∧ ∀ row ∈ mockNystrom D n e L, row.length = n)
    ∧ 1 ≤ (⟨2, some 1, none, none, none, none, none⟩ : DMapState).num_evec
    ∧ (∀ a ∈ ([0, 1] : List ℕ), a < ([[0, 1], [1, 0], [9, 9]] : List (List ℚ)).length)
    ∧ ([0, 1] : List ℕ).Nodup
    ∧ 2 < ([[0, 1], [1, 0], [9, 9]] : List (List ℚ)).length
    ∧ (2 ∉ ([0, 1] : List ℕ))
    ∧ (0 ∈ ([0, 1] : List ℕ))
    ∧ ((DMap.build id mockSolve mockNystrom
          ⟨2, some 1, none, none, none, none, none⟩
          [[0, 1], [1, 0], [9, 9]] (some [0, 1]) (some [0, 1]) (some [0, 1])).2 = none
      ∧ ((DMap.build id mockSolve mockNystrom
            ⟨2, some 1, none, none, none, none, none⟩
            [[0, 1], [1, 0], [9, 9]] (some [0, 1]) (some [0, 1])
            (some [0, 1])).1.evecs_ny.getD []).getD 2 []
          = List.replicate (⟨2, some 1, none, none, none, none, none⟩ : DMapState).num_evec RVal.nan
      ∧ ((DMap.build id mockSolve mockNystrom
            ⟨2, some 1, none, none, none, none, none⟩
            [[0, 1], [1, 0], [9, 9]] (some [0, 1]) (some [0, 1])
            (some [0, 1])).1.coords.getD []).getD 2 []
          = List.replicate (⟨2, some 1, none, none, none, none, none⟩ : DMapState).num_evec RVal.nan
      ∧ ((DMap.build id mockSolve mockNystrom
            ⟨2, some 1, none, none, none, none, none⟩
            [[0, 1], [1, 0], [9, 9]] (some [0, 1]) (some [0, 1])
            (some [0, 1])).1.color_coords.getD []).getD 2 []
          = RVal.fin (1 / 2) :: List.replicate
              ((⟨2, some 1, none, none, none, none, none⟩ : DMapState).num_evec - 1) (RVal.fin 1)
      ∧ (((DMap.build id mockSolve mockNystrom
            ⟨2, some 1, none, none, none, none, none⟩
            [[0, 1], [1, 0], [9, 9]] (some [0, 1]) (some [0, 1])
            (some [0, 1])).1.color_coords.getD []).getD 0 []).getD 0 RVal.nan
          = RVal.fin (1 / 2)) := by
  have hny : ∀ (D : List (List ℚ)) (n : ℕ) (e : ℚ) (L : List (List ℚ)),
      (mockNystrom D n e L).length = L.length
      ∧ ∀ row ∈ mockNystrom D n e L, row.length = n := by
    intro D n e L
    constructor
    · simp [mockNystrom]
    · intro row hrow
      rcases List.mem_map.mp hrow with ⟨x, _, rfl⟩
      simp
  exact ⟨hny, by decide, by decide, by decide, by decide, by decide, by decide,
    build_backfill_sentinel_colors id mockSolve mockNystrom
      ⟨2, some 1, none, none, none, none, none⟩ [[0, 1], [1, 0], [9, 9]]
      [0, 1] [0, 1] [0, 1] 2 0 hny (by decide) (by decide) (by decide)
      (by decide) (by decide) (by decide)⟩

end Crayon
